import Mathlib

/-!
Verification of the `@svgify/react` icon-generation pipeline
(`src/index.ts` / `src/cli.ts`).

Strings are modelled as `List Char`; each JavaScript string operation used
by the source (literal `String.replace`, the concrete regular expressions,
`trim`, `toLowerCase`, `split`, `endsWith`) is embedded as an executable
scanner over `List Char` that is faithful to the ECMAScript semantics of
the concrete pattern appearing in the source.
-/

namespace Svgify

/-! ## Character classes -/

/-- ECMAScript `\s` (the WhiteSpace and LineTerminator code points). -/
def jsSpaceChars : List Char :=
  [' ', '\t', '\n', '\x0b', '\x0c', '\r', ' ', ' ',
   ' ', ' ', ' ', ' ', ' ', ' ', ' ',
   ' ', ' ', ' ', ' ', ' ', ' ', ' ',
   ' ', '　', '﻿']

/-- Decidable test for ECMAScript `\s`. -/
def isJsSpace (c : Char) : Bool := jsSpaceChars.contains c

/-- The range `A`-`Z`. -/
def isAsciiUpper (c : Char) : Bool := 65 ≤ c.toNat && c.toNat ≤ 90

/-- The range `a`-`z`. -/
def isAsciiLower (c : Char) : Bool := 97 ≤ c.toNat && c.toNat ≤ 122

/-- The range `0`-`9`. -/
def isAsciiDigit (c : Char) : Bool := 48 ≤ c.toNat && c.toNat ≤ 57

/-- The class `[a-zA-Z]`. -/
def isAsciiAlpha (c : Char) : Bool := isAsciiUpper c || isAsciiLower c

/-- ECMAScript `\w` (used by the word-boundary assertion `\b`). -/
def isWordChar (c : Char) : Bool := isAsciiAlpha c || isAsciiDigit c || c = '_'

/-- The character class `[\s\-._]` of the sanitizer's separator regex. -/
def isSep (c : Char) : Bool := isJsSpace c || c = '-' || c = '.' || c = '_'

/-- The character class `[a-zA-Z0-9-]` kept by the sanitizer's filter step. -/
def isAllowed (c : Char) : Bool := isAsciiAlpha c || isAsciiDigit c || c = '-'

/-- Lowercase letters, digits and hyphen: the alphabet the spec asserts for
sanitizer output. -/
def isAllowedLower (c : Char) : Bool := isAsciiLower c || isAsciiDigit c || c = '-'

/-! ## Generic string (list) helpers -/

/-- Embeds `leadsWith pat s` : `s` starts with `pat` (literal, case-sensitive). -/
def leadsWith : List Char → List Char → Bool
  | [], _ => true
  | _ :: _, [] => false
  | p :: ps, c :: cs => p = c && leadsWith ps cs

/-- Embeds `trailsWith pat s` : `s` ends with `pat` (JavaScript `String.endsWith`). -/
def trailsWith (pat s : List Char) : Bool := leadsWith pat.reverse s.reverse

/-- JavaScript `s.replace(pat, '')` for a literal string pattern: removes the
first occurrence of `pat` (identity when `pat` does not occur). -/
def removeFirstOcc (pat : List Char) : List Char → List Char
  | [] => []
  | c :: cs => if leadsWith pat (c :: cs) then (c :: cs).drop pat.length
               else c :: removeFirstOcc pat cs

/-! ## `sanitizeFileName` (source lines 179-187) -/

/-- Step 2 of the sanitizer, regex `[\s\-._]+` → `'-'` (global): each maximal
run of separator characters becomes a single hyphen.  The boolean flag
records whether the previous character belonged to a separator run. -/
def collapseSepsAux : Bool → List Char → List Char
  | _, [] => []
  | inRun, c :: cs =>
    if isSep c then
      if inRun then collapseSepsAux true cs else '-' :: collapseSepsAux true cs
    else c :: collapseSepsAux false cs

/-- Regex replace `[\s\-._]+` → `'-'` applied globally. -/
def collapseSeps (s : List Char) : List Char := collapseSepsAux false s

/-- Step 3, regex `[^a-zA-Z0-9-]` → `''` (global). -/
def filterAllowed (s : List Char) : List Char := s.filter isAllowed

/-- Removes the leading hyphen run (the `^-+` alternative of step 4). -/
def dropLeadH : List Char → List Char
  | [] => []
  | c :: cs => if c = '-' then dropLeadH cs else c :: cs

/-- Removes the trailing hyphen run (the `-+$` alternative of step 4). -/
def dropTrailH : List Char → List Char
  | [] => []
  | c :: cs =>
    let r := dropTrailH cs
    if r.isEmpty && c = '-' then [] else c :: r

/-- Step 4, regex `^-+|-+$` → `''` (global): trims leading and trailing
hyphen runs. -/
def trimHyphens (s : List Char) : List Char := dropTrailH (dropLeadH s)

/-- Step 5, regex `-+` → `'-'` (global): collapses hyphen runs. -/
def collapseHyphensAux : Bool → List Char → List Char
  | _, [] => []
  | inRun, c :: cs =>
    if c = '-' then
      if inRun then collapseHyphensAux true cs else '-' :: collapseHyphensAux true cs
    else c :: collapseHyphensAux false cs

/-- Regex replace `-+` → `'-'` applied globally. -/
def collapseHyphens (s : List Char) : List Char := collapseHyphensAux false s

/-- The literal pattern `.svg` removed by the sanitizer's first step. -/
def svgExt : List Char := ['.', 's', 'v', 'g']

/-- Embeds `sanitizeFileName` from the source, over `List Char`. -/
def sanitizeList (s : List Char) : List Char :=
  ((((removeFirstOcc svgExt s
    |> collapseSeps)
    |> filterAllowed)
    |> trimHyphens)
    |> collapseHyphens).map Char.toLower

/-- Embeds `sanitizeFileName` on `String`. -/
def sanitizeFileName (s : String) : String := ⟨sanitizeList s.data⟩

/-! ## `toPascalCase` / `toCamelCase` (source lines 189-199) -/

/-- JavaScript `str.split('-')` over `List Char`. -/
def splitOnHyphen (s : List Char) : List (List Char) := s.splitOn '-'

/-- Embeds `word.charAt(0).toUpperCase() + word.slice(1)`. -/
def capitalizeWord : List Char → List Char
  | [] => []
  | c :: cs => c.toUpper :: cs

/-- Embeds `toPascalCase` from the source. -/
def toPascalCaseList (s : List Char) : List Char :=
  ((splitOnHyphen s).map capitalizeWord).flatten

/-- Embeds `pascal.charAt(0).toLowerCase() + pascal.slice(1)`. -/
def lowerFirst : List Char → List Char
  | [] => []
  | c :: cs => c.toLower :: cs

/-- Embeds `toCamelCase` from the source. -/
def toCamelCaseList (s : List Char) : List Char := lowerFirst (toPascalCaseList s)

/-- Embeds `toPascalCase` on `String`. -/
def toPascalCase (s : String) : String := ⟨toPascalCaseList s.data⟩

/-- Embeds `toCamelCase` on `String`. -/
def toCamelCase (s : String) : String := ⟨toCamelCaseList s.data⟩

/-! ## The sanitizer output invariant (spec §3 / §8) -/

/-- Last character of a string, if any. -/
def lastChar? : List Char → Option Char
  | [] => none
  | [c] => some c
  | _ :: c :: cs => lastChar? (c :: cs)

/-- No two adjacent hyphens. -/
def noDoubleHyphen : List Char → Bool
  | [] => true
  | [_] => true
  | a :: b :: t => !(a = '-' && b = '-') && noDoubleHyphen (b :: t)

/-- The invariant the spec asserts for `sanitizedName`: only `[a-z0-9-]`,
no leading hyphen, no trailing hyphen, no duplicate hyphens (the empty
string satisfies it vacuously). -/
def goodName (s : List Char) : Bool :=
  s.all isAllowedLower && !(s.head? == some '-') && !(lastChar? s == some '-')
    && noDoubleHyphen s

/-! ### `Char.toLower` facts -/

theorem toNat_ofNat_valid {n : Nat} (h : n.isValidChar) : (Char.ofNat n).toNat = n := by
  simp only [Char.ofNat, dif_pos h]
  rfl

theorem toLower_eq_of_not_upper {c : Char} (h : ¬(c.toNat ≥ 65 ∧ c.toNat ≤ 90)) :
    c.toLower = c := by
  unfold Char.toLower
  exact if_neg h

theorem toLower_toNat_of_upper {c : Char} (h1 : c.toNat ≥ 65) (h2 : c.toNat ≤ 90) :
    c.toLower.toNat = c.toNat + 32 := by
  unfold Char.toLower
  rw [if_pos ⟨h1, h2⟩]
  exact toNat_ofNat_valid (Or.inl (by omega))

theorem isAllowedLower_toLower {c : Char} (h : isAllowed c = true) :
    isAllowedLower c.toLower = true := by
  simp only [isAllowed, isAsciiAlpha, isAsciiUpper, isAsciiLower, isAsciiDigit,
    Bool.or_eq_true, Bool.and_eq_true, decide_eq_true_eq] at h
  rcases h with ((⟨h1, h2⟩ | ⟨h1, h2⟩) | ⟨h1, h2⟩) | h
  · have hl := toLower_toNat_of_upper h1 h2
    simp only [isAllowedLower, isAsciiLower, isAsciiDigit, Bool.or_eq_true,
      Bool.and_eq_true, decide_eq_true_eq, hl]
    omega
  · rw [toLower_eq_of_not_upper (by omega)]
    simp only [isAllowedLower, isAsciiLower, isAsciiDigit, Bool.or_eq_true,
      Bool.and_eq_true, decide_eq_true_eq]
    omega
  · rw [toLower_eq_of_not_upper (by omega)]
    simp only [isAllowedLower, isAsciiLower, isAsciiDigit, Bool.or_eq_true,
      Bool.and_eq_true, decide_eq_true_eq]
    omega
  · subst h
    decide

theorem toLower_eq_hyphen {c : Char} : c.toLower = '-' ↔ c = '-' := by
  constructor
  · intro h
    by_cases hu : c.toNat ≥ 65 ∧ c.toNat ≤ 90
    · have ht := toLower_toNat_of_upper hu.1 hu.2
      rw [h] at ht
      have h45 : ('-' : Char).toNat = 45 := by decide
      omega
    · rwa [toLower_eq_of_not_upper hu] at h
  · intro h
    subst h
    decide

theorem toLower_fix {c : Char} (h : isAllowedLower c = true) : c.toLower = c := by
  apply toLower_eq_of_not_upper
  simp only [isAllowedLower, isAsciiLower, isAsciiDigit, Bool.or_eq_true,
    Bool.and_eq_true, decide_eq_true_eq] at h
  rcases h with (⟨h1, h2⟩ | ⟨h1, h2⟩) | h
  · omega
  · omega
  · subst h
    decide

/-! ### `lastChar?` and `noDoubleHyphen` helpers -/

theorem lastChar?_cons_cons (a b : Char) (t : List Char) :
    lastChar? (a :: b :: t) = lastChar? (b :: t) := rfl

theorem lastChar?_cons_ne {c : Char} {cs : List Char} (h : cs ≠ []) :
    lastChar? (c :: cs) = lastChar? cs := by
  cases cs with
  | nil => exact absurd rfl h
  | cons b t => rfl

theorem lastChar?_isSome (a : Char) (t : List Char) : ∃ d, lastChar? (a :: t) = some d := by
  induction t generalizing a with
  | nil => exact ⟨a, rfl⟩
  | cons b t2 ih =>
    rw [lastChar?_cons_cons]
    exact ih b

theorem lastChar?_all_hyphen {s : List Char} (h1 : s ≠ [])
    (h2 : s.all (fun c => c = '-') = true) : lastChar? s = some '-' := by
  induction s with
  | nil => exact absurd rfl h1
  | cons c cs ih =>
    cases cs with
    | nil =>
      simp only [List.all_cons, List.all_nil, Bool.and_eq_true, decide_eq_true_eq] at h2
      simp [lastChar?, h2.1]
    | cons b t =>
      rw [lastChar?_cons_cons]
      rw [List.all_cons, Bool.and_eq_true] at h2
      exact ih (by simp) h2.2

theorem noDouble_cons {a : Char} {l : List Char}
    (h1 : ∀ x, l.head? = some x → ¬(a = '-' ∧ x = '-'))
    (h2 : noDoubleHyphen l = true) : noDoubleHyphen (a :: l) = true := by
  cases l with
  | nil => rfl
  | cons b t =>
    have hb := h1 b rfl
    simp only [noDoubleHyphen, Bool.and_eq_true, Bool.not_eq_true']
    refine ⟨?_, h2⟩
    simp only [Bool.and_eq_false_iff, decide_eq_false_iff_not]
    by_cases ha : a = '-'
    · exact Or.inr (fun hbb => hb ⟨ha, hbb⟩)
    · exact Or.inl ha

/-! ### Stage lemmas for the sanitizer invariant -/

theorem filterAllowed_all (s : List Char) :
    (filterAllowed s).all isAllowed = true := by
  simp only [filterAllowed, List.all_eq_true]
  intro x hx
  exact (List.mem_filter.mp hx).2

theorem dropLeadH_all {s : List Char} {p : Char → Bool} (h : s.all p = true) :
    (dropLeadH s).all p = true := by
  induction s with
  | nil => exact h
  | cons c cs ih =>
    simp only [List.all_cons, Bool.and_eq_true] at h
    simp only [dropLeadH]
    split
    · exact ih h.2
    · simp [List.all_cons, h.1, h.2]

theorem dropTrailH_all {s : List Char} {p : Char → Bool} (h : s.all p = true) :
    (dropTrailH s).all p = true := by
  induction s with
  | nil => exact h
  | cons c cs ih =>
    simp only [List.all_cons, Bool.and_eq_true] at h
    simp only [dropTrailH]
    split
    · rfl
    · simp only [List.all_cons, Bool.and_eq_true]
      exact ⟨h.1, ih h.2⟩

theorem dropLeadH_head {s : List Char} : ∀ c, (dropLeadH s).head? = some c → c ≠ '-' := by
  induction s with
  | nil => intro c h; cases h
  | cons a cs ih =>
    intro c h
    simp only [dropLeadH] at h
    split at h
    · exact ih c h
    · rename_i ha
      rw [List.head?_cons, Option.some_inj] at h
      subst h
      exact ha

theorem dropTrailH_last {s : List Char} : ∀ c, lastChar? (dropTrailH s) = some c → c ≠ '-' := by
  induction s with
  | nil => intro c h; cases h
  | cons a cs ih =>
    intro c h
    simp only [dropTrailH] at h
    split at h
    · cases h
    · rename_i hcond
      rw [Bool.and_eq_true, List.isEmpty_iff, decide_eq_true_eq] at hcond
      by_cases hr : dropTrailH cs = []
      · have ha : ¬(a = '-') := fun hh => hcond ⟨hr, hh⟩
        rw [hr] at h
        simp only [lastChar?, Option.some_inj] at h
        subst h
        exact ha
      · rw [lastChar?_cons_ne hr] at h
        exact ih c h

theorem dropTrailH_head {s : List Char} {c : Char} (h : (dropTrailH s).head? = some c) :
    s.head? = some c := by
  cases s with
  | nil => cases h
  | cons a cs =>
    simp only [dropTrailH] at h
    split at h
    · cases h
    · rw [List.head?_cons, Option.some_inj] at h
      rw [List.head?_cons, h]

theorem trimHyphens_head {s : List Char} : ∀ c, (trimHyphens s).head? = some c → c ≠ '-' := by
  intro c h
  exact dropLeadH_head c (dropTrailH_head h)

theorem trimHyphens_last {s : List Char} : ∀ c, lastChar? (trimHyphens s) = some c → c ≠ '-' :=
  fun c h => dropTrailH_last c h

theorem trimHyphens_all {s : List Char} {p : Char → Bool} (h : s.all p = true) :
    (trimHyphens s).all p = true := dropTrailH_all (dropLeadH_all h)

theorem collapseHAux_eq_nil {s : List Char} : ∀ {b : Bool},
    collapseHyphensAux b s = [] → s.all (fun c => c = '-') = true := by
  induction s with
  | nil => intro b _; rfl
  | cons c cs ih =>
    intro b h
    simp only [collapseHyphensAux] at h
    split at h
    · rename_i hc
      split at h
      · simp only [List.all_cons, Bool.and_eq_true, decide_eq_true_eq]
        exact ⟨hc, ih h⟩
      · cases h
    · cases h

theorem collapseHAux_head_true {s : List Char} :
    ∀ c, (collapseHyphensAux true s).head? = some c → c ≠ '-' := by
  induction s with
  | nil => intro c h; cases h
  | cons a cs ih =>
    intro c h
    simp only [collapseHyphensAux] at h
    split at h
    · exact ih c (by simpa using h)
    · rename_i ha
      rw [List.head?_cons, Option.some_inj] at h
      subst h
      exact ha

theorem collapseHAux_all {s : List Char} {p : Char → Bool} (hp : p '-' = true) :
    ∀ {b : Bool}, s.all p = true → (collapseHyphensAux b s).all p = true := by
  induction s with
  | nil => intro b h; exact h
  | cons c cs ih =>
    intro b h
    simp only [List.all_cons, Bool.and_eq_true] at h
    simp only [collapseHyphensAux]
    split
    · split
      · exact ih h.2
      · simp only [List.all_cons, Bool.and_eq_true, hp, true_and]
        exact ih h.2
    · simp only [List.all_cons, Bool.and_eq_true, h.1, true_and]
      exact ih h.2

theorem collapseHAux_head_false {s : List Char} (h : s.head? ≠ some '-') :
    (collapseHyphensAux false s).head? = s.head? := by
  cases s with
  | nil => rfl
  | cons c cs =>
    have hc : ¬(c = '-') := fun hh => h (by rw [List.head?_cons, hh])
    simp [collapseHyphensAux, hc]

theorem collapseHAux_last {s : List Char} :
    ∀ {b : Bool}, lastChar? s ≠ some '-' → lastChar? (collapseHyphensAux b s) ≠ some '-' := by
  induction s with
  | nil => intro b h; exact h
  | cons c cs ih =>
    intro b h
    simp only [collapseHyphensAux]
    split
    · rename_i hc
      cases cs with
      | nil => exact absurd (by simp [lastChar?, hc]) h
      | cons d t =>
        have h' : lastChar? (d :: t) ≠ some '-' := by
          rwa [lastChar?_cons_cons] at h
        split
        · exact ih h'
        · by_cases hx : collapseHyphensAux true (d :: t) = []
          · exfalso
            exact h' (lastChar?_all_hyphen (by simp) (collapseHAux_eq_nil hx))
          · rw [lastChar?_cons_ne hx]
            exact ih h'
    · rename_i hc
      cases cs with
      | nil =>
        simp only [collapseHyphensAux, lastChar?]
        intro hh
        exact hc (Option.some_inj.mp hh)
      | cons d t =>
        have h' : lastChar? (d :: t) ≠ some '-' := by
          rwa [lastChar?_cons_cons] at h
        by_cases hx : collapseHyphensAux false (d :: t) = []
        · rw [hx]
          simp only [lastChar?]
          intro hh
          exact hc (Option.some_inj.mp hh)
        · rw [lastChar?_cons_ne hx]
          exact ih h'

theorem collapseHAux_noDouble {s : List Char} :
    ∀ {b : Bool}, noDoubleHyphen (collapseHyphensAux b s) = true := by
  induction s with
  | nil => intro b; rfl
  | cons c cs ih =>
    intro b
    simp only [collapseHyphensAux]
    split
    · split
      · exact ih
      · refine noDouble_cons ?_ ih
        intro x hx hcontra
        exact collapseHAux_head_true x hx hcontra.2
    · rename_i hc
      refine noDouble_cons ?_ ih
      intro x _ hcontra
      exact hc hcontra.1

theorem map_toLower_all {s : List Char} (h : s.all isAllowed = true) :
    (s.map Char.toLower).all isAllowedLower = true := by
  rw [List.all_map, List.all_eq_true]
  rw [List.all_eq_true] at h
  intro x hx
  exact isAllowedLower_toLower (h x hx)

theorem map_toLower_head {s : List Char} (h : s.head? ≠ some '-') :
    (s.map Char.toLower).head? ≠ some '-' := by
  rw [List.head?_map]
  cases hs : s.head? with
  | none => simp
  | some a =>
    simp only [Option.map_some', ne_eq, Option.some_inj]
    intro hc
    exact h (by rw [hs, toLower_eq_hyphen.mp hc])

theorem lastChar?_map (f : Char → Char) (s : List Char) :
    lastChar? (s.map f) = (lastChar? s).map f := by
  induction s with
  | nil => rfl
  | cons c cs ih =>
    cases cs with
    | nil => rfl
    | cons b t =>
      show lastChar? (f c :: f b :: t.map f) = _
      rw [lastChar?_cons_cons, lastChar?_cons_cons]
      exact ih

theorem map_toLower_last {s : List Char} (h : lastChar? s ≠ some '-') :
    lastChar? (s.map Char.toLower) ≠ some '-' := by
  rw [lastChar?_map]
  cases hs : lastChar? s with
  | none => simp
  | some a =>
    simp only [Option.map_some', ne_eq, Option.some_inj]
    intro hc
    exact h (by rw [hs, toLower_eq_hyphen.mp hc])

theorem map_toLower_noDouble {s : List Char} (h : noDoubleHyphen s = true) :
    noDoubleHyphen (s.map Char.toLower) = true := by
  induction s with
  | nil => rfl
  | cons c cs ih =>
    cases cs with
    | nil => rfl
    | cons b t =>
      simp only [noDoubleHyphen, Bool.and_eq_true, Bool.not_eq_true',
        Bool.and_eq_false_iff, decide_eq_false_iff_not] at h
      have ih2 := ih h.2
      show noDoubleHyphen (c.toLower :: b.toLower :: t.map Char.toLower) = true
      simp only [noDoubleHyphen, Bool.and_eq_true, Bool.not_eq_true',
        Bool.and_eq_false_iff, decide_eq_false_iff_not]
      refine ⟨?_, ih2⟩
      rcases h.1 with hc | hb
      · exact Or.inl (fun hh => hc (toLower_eq_hyphen.mp hh))
      · exact Or.inr (fun hh => hb (toLower_eq_hyphen.mp hh))

theorem head_ne_of_forall {s : List Char} (h : ∀ c, s.head? = some c → c ≠ '-') :
    s.head? ≠ some '-' := fun hh => h '-' hh rfl

theorem last_ne_of_forall {s : List Char} (h : ∀ c, lastChar? s = some c → c ≠ '-') :
    lastChar? s ≠ some '-' := fun hh => h '-' hh rfl

theorem goodName_sanitizeList (s : List Char) : goodName (sanitizeList s) = true := by
  have h2 : (filterAllowed (collapseSeps (removeFirstOcc svgExt s))).all isAllowed = true :=
    filterAllowed_all _
  have h3all := trimHyphens_all (p := isAllowed) h2
  have h3head := head_ne_of_forall
    (fun c hc => trimHyphens_head (s := filterAllowed (collapseSeps (removeFirstOcc svgExt s))) c hc)
  have h3last := last_ne_of_forall
    (fun c hc => trimHyphens_last (s := filterAllowed (collapseSeps (removeFirstOcc svgExt s))) c hc)
  have h4all := collapseHAux_all (p := isAllowed) (by decide) (b := false) h3all
  have h4head : (collapseHyphens (trimHyphens (filterAllowed
      (collapseSeps (removeFirstOcc svgExt s))))).head? ≠ some '-' := by
    rw [collapseHyphens, collapseHAux_head_false h3head]
    exact h3head
  have h4last := collapseHAux_last (b := false) h3last
  have h4nd := collapseHAux_noDouble (s := trimHyphens (filterAllowed
      (collapseSeps (removeFirstOcc svgExt s)))) (b := false)
  show goodName ((collapseHyphens (trimHyphens (filterAllowed
      (collapseSeps (removeFirstOcc svgExt s))))).map Char.toLower) = true
  unfold goodName
  simp only [Bool.and_eq_true, Bool.not_eq_true', beq_eq_false_iff_ne, ne_eq]
  exact ⟨⟨⟨map_toLower_all h4all, map_toLower_head h4head⟩, map_toLower_last h4last⟩,
    map_toLower_noDouble h4nd⟩

/-! ### Each sanitizer stage fixes strings satisfying the output invariant -/

theorem jsSpace_not_allowedLower {c : Char} (h : isJsSpace c = true) :
    isAllowedLower c = false := by
  have hmem : c ∈ jsSpaceChars := by
    simpa [isJsSpace, List.contains_iff_exists_mem_beq] using h
  have hall : ∀ x ∈ jsSpaceChars, isAllowedLower x = false := by decide
  exact hall c hmem

theorem sep_of_allowedLower {c : Char} (h : isAllowedLower c = true) (hs : isSep c = true) :
    c = '-' := by
  simp only [isSep, Bool.or_eq_true, decide_eq_true_eq] at hs
  rcases hs with ((hsp | hh) | hd) | hu
  · rw [jsSpace_not_allowedLower hsp] at h
    cases h
  · exact hh
  · rw [hd] at h
    cases h
  · rw [hu] at h
    cases h

theorem noDouble_tail {a : Char} {l : List Char} (h : noDoubleHyphen (a :: l) = true) :
    noDoubleHyphen l = true := by
  cases l with
  | nil => rfl
  | cons b t =>
    simp only [noDoubleHyphen, Bool.and_eq_true] at h
    exact h.2

theorem noDouble_head {a : Char} {l : List Char} (ha : a = '-')
    (h : noDoubleHyphen (a :: l) = true) : ∀ d, l.head? = some d → d ≠ '-' := by
  intro d hd
  cases l with
  | nil => cases hd
  | cons b t =>
    rw [List.head?_cons, Option.some_inj] at hd
    subst hd
    simp only [noDoubleHyphen, Bool.and_eq_true, Bool.not_eq_true',
      Bool.and_eq_false_iff, decide_eq_false_iff_not] at h
    rcases h.1 with hc | hc
    · exact absurd ha hc
    · exact hc

theorem removeFirstOcc_svg_id {s : List Char} (h : ∀ c ∈ s, c ≠ '.') :
    removeFirstOcc svgExt s = s := by
  induction s with
  | nil => rfl
  | cons c cs ih =>
    simp only [removeFirstOcc]
    rw [if_neg, ih (fun x hx => h x (List.mem_cons_of_mem c hx))]
    intro hw
    simp only [svgExt, leadsWith, Bool.and_eq_true, decide_eq_true_eq] at hw
    exact h c (List.mem_cons_self c cs) hw.1.symm

theorem collapseSepsAux_flag {s : List Char} (h : ∀ d, s.head? = some d → isSep d = false) :
    collapseSepsAux true s = collapseSepsAux false s := by
  cases s with
  | nil => rfl
  | cons c cs =>
    have hc := h c rfl
    simp [collapseSepsAux, hc]

theorem collapseSepsAux_id {s : List Char} (hall : s.all isAllowedLower = true)
    (hnd : noDoubleHyphen s = true) : collapseSepsAux false s = s := by
  induction s with
  | nil => rfl
  | cons c cs ih =>
    simp only [List.all_cons, Bool.and_eq_true] at hall
    by_cases hsep : isSep c = true
    · have hc : c = '-' := sep_of_allowedLower hall.1 hsep
      simp only [collapseSepsAux, hsep, if_true, Bool.false_eq_true, if_false]
      rw [collapseSepsAux_flag, ih hall.2 (noDouble_tail hnd), hc]
      intro d hd
      by_cases hds : isSep d = true
      · have hd' : d = '-' := by
          apply sep_of_allowedLower _ hds
          cases cs with
          | nil => cases hd
          | cons b t =>
            rw [List.head?_cons, Option.some_inj] at hd
            rw [← hd]
            exact (List.all_eq_true.mp hall.2) b (List.mem_cons_self b t)
        exact absurd hd' (noDouble_head hc hnd d hd)
      · simpa using hds
    · have hsf : isSep c = false := by simpa using hsep
      simp only [collapseSepsAux, hsf, Bool.false_eq_true, if_false]
      rw [ih hall.2 (noDouble_tail hnd)]

theorem allowed_of_allowedLower {c : Char} (h : isAllowedLower c = true) :
    isAllowed c = true := by
  simp only [isAllowedLower, Bool.or_eq_true] at h
  simp only [isAllowed, isAsciiAlpha, Bool.or_eq_true]
  rcases h with (hl | hd) | hu
  · exact Or.inl (Or.inl (Or.inr hl))
  · exact Or.inl (Or.inr hd)
  · exact Or.inr hu

theorem filterAllowed_id {s : List Char} (h : s.all isAllowed = true) :
    filterAllowed s = s := by
  unfold filterAllowed
  rw [List.all_eq_true] at h
  induction s with
  | nil => rfl
  | cons c cs ih =>
    rw [List.filter_cons_of_pos (h c (List.mem_cons_self c cs)),
      ih (fun x hx => h x (List.mem_cons_of_mem c hx))]

theorem dropLeadH_id {s : List Char} (h : s.head? ≠ some '-') : dropLeadH s = s := by
  cases s with
  | nil => rfl
  | cons c cs =>
    have hc : ¬(c = '-') := fun hh => h (by rw [List.head?_cons, hh])
    simp [dropLeadH, hc]

theorem dropTrailH_id {s : List Char} (h : lastChar? s ≠ some '-') : dropTrailH s = s := by
  induction s with
  | nil => rfl
  | cons c cs ih =>
    cases cs with
    | nil =>
      have hc : ¬(c = '-') := fun hh => h (by simp [lastChar?, hh])
      simp [dropTrailH, hc]
    | cons b t =>
      have h' : lastChar? (b :: t) ≠ some '-' := by rwa [lastChar?_cons_cons] at h
      have hr := ih h'
      show (if (dropTrailH (b :: t)).isEmpty && c = '-' then []
        else c :: dropTrailH (b :: t)) = c :: b :: t
      rw [hr]
      simp

theorem collapseHAux_flag {s : List Char} (h : ∀ d, s.head? = some d → d ≠ '-') :
    collapseHyphensAux true s = collapseHyphensAux false s := by
  cases s with
  | nil => rfl
  | cons c cs =>
    have hc := h c rfl
    simp [collapseHyphensAux, hc]

theorem collapseHAux_id {s : List Char} (hnd : noDoubleHyphen s = true) :
    collapseHyphensAux false s = s := by
  induction s with
  | nil => rfl
  | cons c cs ih =>
    by_cases hc : c = '-'
    · simp only [collapseHyphensAux, hc, if_true, Bool.false_eq_true, if_false]
      rw [collapseHAux_flag (noDouble_head hc hnd), ih (noDouble_tail hnd)]
    · simp only [collapseHyphensAux, hc, if_false, Bool.false_eq_true]
      rw [ih (noDouble_tail hnd)]

theorem map_toLower_id {s : List Char} (h : s.all isAllowedLower = true) :
    s.map Char.toLower = s := by
  induction s with
  | nil => rfl
  | cons c cs ih =>
    simp only [List.all_cons, Bool.and_eq_true] at h
    rw [List.map_cons, toLower_fix h.1, ih h.2]

/-! ## Color normalization (source lines 238-239)

The regexes `fill="(?!none|currentColor)[^"]*"` and
`stroke="(?!none|currentColor)[^"]*"` (flags `gi`), replaced by
`fill="currentColor"` / `stroke="currentColor"`. -/

/-- Case-insensitive literal matching: `tryKey pat s` consumes `pat`
(stored lowercase, compared against the ASCII-lowered text, which is the
ECMAScript canonicalisation for an `i`-flagged ASCII pattern) and returns
the rest of `s` on success. -/
def tryKey : List Char → List Char → Option (List Char)
  | [], s => some s
  | _ :: _, [] => none
  | p :: ps, c :: cs => if c.toLower = p then tryKey ps cs else none

/-- Embeds `leadsWithCI pat s`: `s` starts with `pat`, case-insensitively. -/
def leadsWithCI (pat s : List Char) : Bool := (tryKey pat s).isSome

/-- The body `[^"]*"`: greedily consume up to and including the first `"`;
`none` when the string has no closing quote (the regex then fails at this
start position). -/
def takeThroughQuote : List Char → Option (List Char)
  | [] => none
  | c :: cs => if c = '"' then some cs else takeThroughQuote cs

/-- The lookahead literal `none` (lowercase, for `i`-flag matching). -/
def noneLit : List Char := "none".data

/-- The lookahead literal `currentColor` (lowered, for `i`-flag matching). -/
def currentColorLit : List Char := "currentcolor".data

/-- One attempted match of `attrOpen(?!none|currentColor)[^"]*"` at the head
of `s`; returns the remainder after the match. -/
def colorMatchAt (attrOpen : List Char) (s : List Char) : Option (List Char) :=
  match tryKey attrOpen s with
  | none => none
  | some r =>
    if leadsWithCI noneLit r || leadsWithCI currentColorLit r then none
    else takeThroughQuote r

/-- Global regex replacement: scan left to right, on a match emit `repl` and
continue after the matched text, otherwise advance one character.  `fuel`
bounds the recursion; it starts at the string length, which the scan never
exceeds. -/
def normColorAux (attrOpen repl : List Char) : Nat → List Char → List Char
  | 0, s => s
  | _ + 1, [] => []
  | fuel + 1, c :: cs =>
    match colorMatchAt attrOpen (c :: cs) with
    | some rest => repl ++ normColorAux attrOpen repl fuel rest
    | none => c :: normColorAux attrOpen repl fuel cs

/-- Embeds `s.replace(regex, repl)` for the color-normalization regexes. -/
def normColor (attrOpen repl : List Char) (s : List Char) : List Char :=
  normColorAux attrOpen repl s.length s

/-- The pattern prefix `fill="`. -/
def fillOpen : List Char := "fill=\"".data

/-- The pattern prefix `stroke="`. -/
def strokeOpen : List Char := "stroke=\"".data

/-- The replacement `fill="currentColor"`. -/
def fillRepl : List Char := "fill=\"currentColor\"".data

/-- The replacement `stroke="currentColor"`. -/
def strokeRepl : List Char := "stroke=\"currentColor\"".data

/-- Embeds `.replace(/fill="(?!none|currentColor)[^"]*"/gi, 'fill="currentColor"')`. -/
def normFill (s : List Char) : List Char := normColor fillOpen fillRepl s

/-- Embeds `.replace(/stroke="(?!none|currentColor)[^"]*"/gi, 'stroke="currentColor"')`. -/
def normStroke (s : List Char) : List Char := normColor strokeOpen strokeRepl s

theorem tryKey_refl {pat : List Char} (h : ∀ c ∈ pat, c.toLower = c) (w : List Char) :
    tryKey pat (pat ++ w) = some w := by
  induction pat with
  | nil => rfl
  | cons p ps ih =>
    simp only [List.cons_append, tryKey, h p (List.mem_cons_self p ps), if_true]
    exact ih (fun c hc => h c (List.mem_cons_of_mem p hc))

theorem takeThroughQuote_append {v : List Char} (hq : '"' ∉ v) (w : List Char) :
    takeThroughQuote (v ++ '"' :: w) = some w := by
  induction v with
  | nil => simp [takeThroughQuote]
  | cons c cs ih =>
    have hc : ¬(c = '"') := fun hh => hq (by rw [hh]; exact List.mem_cons_self _ _)
    simp only [List.cons_append, takeThroughQuote, hc, if_false]
    exact ih (fun hm => hq (List.mem_cons_of_mem c hm))

theorem leadsWithCI_quote {pat : List Char} (hpat : ∀ p ∈ pat, p ≠ '"') :
    ∀ {v : List Char}, leadsWithCI pat v = false → leadsWithCI pat (v ++ ['"']) = false := by
  induction pat with
  | nil => intro v h; cases h
  | cons p ps ih =>
    intro v h
    cases v with
    | nil =>
      have hp : ¬(('"' : Char).toLower = p) := fun hh =>
        hpat p (List.mem_cons_self p ps) (by rw [← hh]; rfl)
      simp only [List.nil_append]
      show (if ('"' : Char).toLower = p then tryKey ps [] else none).isSome = false
      rw [if_neg hp]
      rfl
    | cons c cs =>
      simp only [leadsWithCI, List.cons_append, tryKey] at h ⊢
      split
      · split at h
        · exact ih (fun q hq => hpat q (List.mem_cons_of_mem p hq)) h
        · simp_all
      · simp

theorem normColorAux_nil (attrOpen repl : List Char) (f : Nat) :
    normColorAux attrOpen repl f [] = [] := by
  cases f <;> rfl

theorem normColor_single {a : Char} {as v : List Char}
    (hopen : ∀ c ∈ a :: as, c.toLower = c)
    (hq : '"' ∉ v)
    (h1 : leadsWithCI noneLit v = false)
    (h2 : leadsWithCI currentColorLit v = false)
    (repl : List Char) :
    normColor (a :: as) repl ((a :: as) ++ v ++ ['"']) = repl := by
  have hmatch : colorMatchAt (a :: as) ((a :: as) ++ v ++ ['"']) = some [] := by
    unfold colorMatchAt
    rw [List.append_assoc, tryKey_refl hopen]
    show (if (leadsWithCI noneLit (v ++ ['"']) || leadsWithCI currentColorLit (v ++ ['"']))
        = true then none else takeThroughQuote (v ++ ['"'])) = some []
    rw [leadsWithCI_quote (by decide) h1, leadsWithCI_quote (by decide) h2]
    simp only [Bool.or_self, Bool.false_eq_true, if_false]
    exact takeThroughQuote_append hq []
  have hlen : ((a :: as) ++ v ++ ['"']).length = (as ++ v ++ ['"']).length + 1 := by
    simp
  unfold normColor
  rw [hlen]
  have hcons : (a :: as) ++ v ++ ['"'] = a :: (as ++ v ++ ['"']) := by simp
  rw [hcons] at hmatch ⊢
  simp only [normColorAux, hmatch]
  rw [normColorAux_nil]
  simp

/-! ## Attribute-name translation (source lines 201-208)

For each entry of `SVG_ATTR_MAP` the source builds the regex
`\b<kebab>(?=\s*=)` (flags `gi`) and replaces every match with the camelCase
name.  Every kebab key starts and ends with an ASCII letter, so the leading
`\b` holds exactly when the preceding character is not a word character, and
after a replaced match the scan resumes with a word character (the key's
last letter) to its left. -/

/-- The lookahead `(?=\s*=)`. -/
def lookEq : List Char → Bool
  | [] => false
  | c :: cs => if c = '=' then true else if isJsSpace c then lookEq cs else false

/-- One attempted match of `\b<key>(?=\s*=)` at the head of `s`, where `pw`
says whether the character before `s` is a word character; returns the text
after the matched key (the lookahead is not consumed). -/
def matchAt (key : List Char) (pw : Bool) (s : List Char) : Option (List Char) :=
  match s with
  | [] => none
  | c :: _ =>
    match tryKey key s with
    | some r => if (pw != isWordChar c) && lookEq r then some r else none
    | none => none

/-- Global replacement of `\b<key>(?=\s*=)` by `camel`: scan left to right,
on a match emit `camel` and resume after the key (which ends in a word
character, so the resumed scan's left context is a word character),
otherwise advance one character.  `fuel` starts at the string length, which
the scan never exceeds. -/
def scanKey (key camel : List Char) : Nat → Bool → List Char → List Char
  | 0, _, s => s
  | _ + 1, _, [] => []
  | fuel + 1, pw, c :: cs =>
    match matchAt key pw (c :: cs) with
    | some r => camel ++ scanKey key camel fuel true r
    | none => c :: scanKey key camel fuel (isWordChar c) cs

/-- Embeds `result.replace(new RegExp(..., 'gi'), camel)` for one map entry. -/
def replaceKey (key camel : List Char) (s : List Char) : List Char :=
  scanKey key camel s.length false s

/-- Embeds `SVG_ATTR_MAP` in source (insertion) order; keys stored lowercase for
the `i`-flag comparison. -/
def svgAttrTable : List (List Char × List Char) :=
  [("clip-path".data, "clipPath".data),
   ("clip-rule".data, "clipRule".data),
   ("fill-rule".data, "fillRule".data),
   ("fill-opacity".data, "fillOpacity".data),
   ("stroke-width".data, "strokeWidth".data),
   ("stroke-linecap".data, "strokeLinecap".data),
   ("stroke-linejoin".data, "strokeLinejoin".data),
   ("stroke-miterlimit".data, "strokeMiterlimit".data),
   ("stroke-dasharray".data, "strokeDasharray".data),
   ("stroke-dashoffset".data, "strokeDashoffset".data),
   ("stroke-opacity".data, "strokeOpacity".data),
   ("stop-color".data, "stopColor".data),
   ("stop-opacity".data, "stopOpacity".data),
   ("xlink:href".data, "xlinkHref".data),
   ("xml:space".data, "xmlSpace".data),
   ("xmlns:xlink".data, "xmlnsXlink".data)]

/-- Embeds `convertSvgAttributesToCamelCase` from the source: the sixteen
replacements applied in insertion order. -/
def convertSvgAttributesToCamelCase (s : List Char) : List Char :=
  svgAttrTable.foldl (fun acc e => replaceKey e.1 e.2 acc) s

/-! ## Outer `<svg>` wrapper stripping (source lines 234-237) -/

/-- The literal head of the open-tag regex `<svg[^>]*>`. -/
def openTagLit : List Char := "<svg".data

/-- The literal close-tag pattern `</svg>`. -/
def closeTagLit : List Char := "</svg>".data

/-- Embeds `[^>]*>` after `<svg`: greedily consume up to and including the first
`>`; `none` when there is no `>` (the regex then has no match at all,
because every later start position sees a subset of this text). -/
def dropThroughGt : List Char → Option (List Char)
  | [] => none
  | c :: cs => if c = '>' then some cs else dropThroughGt cs

/-- Embeds `.replace(/<svg[^>]*>/, '')`: removes the first match. -/
def removeOpenTag : List Char → List Char
  | [] => []
  | c :: cs =>
    if leadsWith openTagLit (c :: cs) then
      match dropThroughGt ((c :: cs).drop 4) with
      | some rest => rest
      | none => c :: cs
    else c :: removeOpenTag cs

/-- JavaScript `String.prototype.trim` (strips `\s` from both ends). -/
def trimJs (s : List Char) : List Char :=
  ((s.dropWhile isJsSpace).reverse.dropWhile isJsSpace).reverse

/-- The stripping stage of `processIcon`:
`.replace(/<svg[^>]*>/, '').replace(/<\/svg>/, '').trim()` — note the close
tag's first occurrence is removed. -/
def extractInner (s : List Char) : List Char :=
  trimJs (removeFirstOcc closeTagLit (removeOpenTag s))

/-- Modelled from the spec's words (for the C1 comparison): the same
stripping but removing the LAST occurrence of `</svg>`, as the spec and
claim state. -/
def removeLastOcc (pat : List Char) (s : List Char) : List Char :=
  (removeFirstOcc pat.reverse s.reverse).reverse

/-- Modelled from the spec's words (for the C1 comparison): stripping with
the last close-tag occurrence removed. -/
def specExtractInner (s : List Char) : List Char :=
  trimJs (removeLastOcc closeTagLit (removeOpenTag s))

/-- The full `optimizedSvg` derivation applied to the optimizer output
(source lines 234-241): strip wrapper, trim, normalize colors, translate
attribute names. -/
def optimizedSvgOf (data : List Char) : List Char :=
  convertSvgAttributesToCamelCase (normStroke (normFill (extractInner data)))

/-! ## `processIcon` (source lines 214-255) -/

/-- The record built by `processIcon`. -/
structure ProcessedIcon where
  originalFile : String
  sanitizedName : String
  componentName : String
  camelCaseName : String
  svgContent : String
  optimizedSvg : String
deriving DecidableEq, Repr

/-- The literal suffix `.svg`. -/
def svgSuffix : List Char := ".svg".data

/-- Embeds `processIcon`: the file read and the optimizer call are the two fallible
steps (the `try`/`catch` turns their exceptions into a `null` return), so
they enter as `Except` values; everything else follows the source line by
line. -/
def processIcon (filename : String) (readResult : Except String String)
    (optimizeResult : String → Except String String) : Option ProcessedIcon :=
  if trailsWith svgSuffix filename.data = false then none
  else
    match readResult with
    | .error _ => none
    | .ok svgContent =>
      match optimizeResult svgContent with
      | .error _ => none
      | .ok data =>
        let sanitizedName := sanitizeFileName filename
        if sanitizedName = "" then none
        else some
          { originalFile := filename
            sanitizedName := sanitizedName
            componentName := toPascalCase sanitizedName ++ "Icon"
            camelCaseName := toCamelCase sanitizedName
            svgContent := svgContent
            optimizedSvg := ⟨optimizedSvgOf data.data⟩ }

/-- The per-file loop of `generate` (source lines 457-467): successes are
accumulated, `null` results are skipped and the loop continues. -/
def processLoop (files : List String) (readF : String → Except String String)
    (optF : String → String → Except String String) : List ProcessedIcon :=
  files.foldl (fun acc f =>
    match processIcon f (readF f) (optF f) with
    | some icon => acc ++ [icon]
    | none => acc) []

/-- The `.svg` discovery filter of `generate` (source line 445). -/
def filterSvgFiles (files : List String) : List String :=
  files.filter (fun f => trailsWith svgSuffix f.data)

/-! ## Template generators and the write sequence of `generate`
(source lines 261-422 and 479-500)

The resolved configuration: `generate` merges the user configuration over
the defaults, so `iconMode`, `typescript` and `className` are present; the
generators' residual `|| 'both'` / `|| 'icon'` fallbacks are kept. -/

/-- Embeds `iconMode`. -/
inductive IconMode
  | direct
  | registry
  | both
deriving DecidableEq, Repr

/-- The resolved configuration fields the generators read. -/
structure GenConfig where
  iconMode : IconMode
  typescript : Bool
  className : String
deriving Repr

/-- Embeds `getFileExtension`. -/
def getFileExtension (typescript : Bool) : String := if typescript then "tsx" else "jsx"

/-- Embeds `generateIconComponent`. -/
def generateIconComponent (icon : ProcessedIcon) (config : GenConfig) : String :=
  let isTS := config.typescript
  let baseClassName := if config.className = "" then "icon" else config.className
  "// Auto-generated component - DO NOT EDIT\n"
  ++ (if isTS then "import type \x7b SVGProps \x7d from \x27react\x27;" else "") ++ "\n"
  ++ "\n"
  ++ (if isTS then "export " else "") ++ "interface IconProps extends "
  ++ (if isTS then "SVGProps<SVGSVGElement>" else "React.SVGProps<SVGSVGElement>")
  ++ " \x7b\n"
  ++ "  size?: number | string;\n"
  ++ "  color?: string;\n"
  ++ "\x7d\n"
  ++ "\n"
  ++ "/**\n"
  ++ " * " ++ icon.componentName ++ "\n"
  ++ " * Original file: " ++ icon.originalFile ++ "\n"
  ++ " */\n"
  ++ "export const " ++ icon.componentName
  ++ (if isTS then ": React.FC<IconProps>" else "") ++ " = (\x7b \n"
  ++ "  size,\n"
  ++ "  width,\n"
  ++ "  height,\n"
  ++ "  color = \x27currentColor\x27,\n"
  ++ "  className = \x27\x27,\n"
  ++ "  style,\n"
  ++ "  ...props \n"
  ++ "\x7d) => \x7b\n"
  ++ "  const w = size || width || 20;\n"
  ++ "  const h = size || height || width || 20;\n"
  ++ "  const combinedClassName = \x60" ++ baseClassName
  ++ " \x24\x7bclassName\x7d\x60.trim();\n"
  ++ "  \n"
  ++ "  return (\n"
  ++ "    <svg\n"
  ++ "      width=\x7bw\x7d\n"
  ++ "      height=\x7bh\x7d\n"
  ++ "      viewBox=\"0 0 24 24\"\n"
  ++ "      fill=\x7bcolor\x7d\n"
  ++ "      className=\x7bcombinedClassName\x7d\n"
  ++ "      style=\x7b\x7b color, ...style \x7d\x7d\n"
  ++ "      \x7b...props\x7d\n"
  ++ "    >\n"
  ++ "      " ++ icon.optimizedSvg ++ "\n"
  ++ "    </svg>\n"
  ++ "  );\n"
  ++ "\x7d;\n"
  ++ "\n"
  ++ icon.componentName ++ ".displayName = \x27" ++ icon.componentName ++ "\x27;\n"
  ++ "\n"
  ++ "export default " ++ icon.componentName ++ ";\n"

/-- Embeds `generateIconRegistry`. -/
def generateIconRegistry (icons : List ProcessedIcon) (config : GenConfig) : String :=
  let isTS := config.typescript
  let iconNames := icons.map (fun icon => icon.camelCaseName)
  "// Auto-generated file - DO NOT EDIT\n"
  ++ (if isTS then "import type \x7b FC \x7d from \x27react\x27;"
      else "import \x7b FC \x7d from \x27react\x27;") ++ "\n"
  ++ "\n"
  ++ "// Import all icons\n"
  ++ String.intercalate "\n" (icons.map (fun icon =>
       "import " ++ icon.componentName ++ " from \x27./" ++ icon.componentName ++ "\x27;"))
  ++ "\n"
  ++ "\n"
  ++ "export const iconNames = [\n"
  ++ String.intercalate "\n" (iconNames.map (fun name => "  \x27" ++ name ++ "\x27,"))
  ++ "\n]" ++ (if isTS then " as const" else "") ++ ";\n"
  ++ "\n"
  ++ (if isTS then "export type IconName = typeof iconNames[number];" else "") ++ "\n"
  ++ "\n"
  ++ "const iconComponents" ++ (if isTS then ": Record<string, FC<any>>" else "")
  ++ " = \x7b\n"
  ++ String.intercalate "\n" (icons.map (fun icon =>
       "  \x27" ++ icon.camelCaseName ++ "\x27: " ++ icon.componentName ++ ","))
  ++ "\n\x7d;\n"
  ++ "\n"
  ++ "export function getIconComponent(name" ++ (if isTS then ": string" else "") ++ ")"
  ++ (if isTS then ": FC<any> | undefined" else "") ++ " \x7b\n"
  ++ "  return iconComponents[name];\n"
  ++ "\x7d\n"
  ++ "\n"
  ++ "export function hasIcon(name" ++ (if isTS then ": string" else "") ++ ")"
  ++ (if isTS then ": boolean" else "") ++ " \x7b\n"
  ++ "  return name in iconComponents;\n"
  ++ "\x7d\n"
  ++ "\n"
  ++ "export function getAllIconNames()" ++ (if isTS then ": string[]" else "") ++ " \x7b\n"
  ++ "  return Object.keys(iconComponents);\n"
  ++ "\x7d\n"

/-- Embeds `generateIconWrapper`. -/
def generateIconWrapper (config : GenConfig) : String :=
  let isTS := config.typescript
  let baseClassName := if config.className = "" then "icon" else config.className
  "// Auto-generated file - DO NOT EDIT\n"
  ++ (if isTS then "import type \x7b SVGProps \x7d from \x27react\x27;" else "") ++ "\n"
  ++ "import \x7b getIconComponent \x7d from \x27./IconRegistry\x27;\n"
  ++ (if isTS then "import type \x7b IconName \x7d from \x27./IconRegistry\x27;" else "")
  ++ "\n"
  ++ "\n"
  ++ (if isTS then "export " else "") ++ "interface IconProps extends "
  ++ (if isTS then "SVGProps<SVGSVGElement>" else "React.SVGProps<SVGSVGElement>")
  ++ " \x7b\n"
  ++ "  icon" ++ (if isTS then ": IconName" else "") ++ ";\n"
  ++ "  size?: number | string;\n"
  ++ "  color?: string;\n"
  ++ "\x7d\n"
  ++ "\n"
  ++ "export const Icon" ++ (if isTS then ": React.FC<IconProps>" else "") ++ " = (\x7b \n"
  ++ "  icon,\n"
  ++ "  size,\n"
  ++ "  width,\n"
  ++ "  height,\n"
  ++ "  color = \x27currentColor\x27,\n"
  ++ "  className = \x27\x27,\n"
  ++ "  style,\n"
  ++ "  ...props \n"
  ++ "\x7d) => \x7b\n"
  ++ "  const IconComponent = getIconComponent(icon);\n"
  ++ "  \n"
  ++ "  if (!IconComponent) \x7b\n"
  ++ "    console.warn(\x60Icon \"\x24\x7bicon\x7d\" not found\x60);\n"
  ++ "    return null;\n"
  ++ "  \x7d\n"
  ++ "\n"
  ++ "  const w = size || width || 20;\n"
  ++ "  const h = size || height || width || 20;\n"
  ++ "  const combinedClassName = \x60" ++ baseClassName
  ++ " \x24\x7bclassName\x7d\x60.trim();\n"
  ++ "\n"
  ++ "  return (\n"
  ++ "    <IconComponent\n"
  ++ "      width=\x7bw\x7d\n"
  ++ "      height=\x7bh\x7d\n"
  ++ "      color=\x7bcolor\x7d\n"
  ++ "      className=\x7bcombinedClassName\x7d\n"
  ++ "      style=\x7b\x7b color, ...style \x7d\x7d\n"
  ++ "      \x7b...props\x7d\n"
  ++ "    />\n"
  ++ "  );\n"
  ++ "\x7d;\n"
  ++ "\n"
  ++ "Icon.displayName = \x27Icon\x27;\n"

/-- Embeds `generateIndexFile`. -/
def generateIndexFile (icons : List ProcessedIcon) (config : GenConfig) : String :=
  let mode := config.iconMode
  let registryPart :=
    if mode = IconMode.registry ∨ mode = IconMode.both then
      "// Registry exports\n"
      ++ "export \x7b Icon \x7d from \x27./Icon\x27;\n"
      ++ "export type \x7b IconProps \x7d from \x27./Icon\x27;\n"
      ++ "export \x7b iconNames, getIconComponent, hasIcon, getAllIconNames \x7d"
      ++ " from \x27./IconRegistry\x27;\n"
      ++ "export type \x7b IconName \x7d from \x27./IconRegistry\x27;\n\n"
    else ""
  let directPart :=
    if mode = IconMode.direct ∨ mode = IconMode.both then
      "// Direct component exports\n"
      ++ String.intercalate "\n" (icons.map (fun icon =>
           "export \x7b default as " ++ icon.componentName ++ " \x7d from \x27./"
             ++ icon.componentName ++ "\x27;"))
      ++ "\n\n// Total icons: " ++ toString icons.length
    else ""
  "// Auto-generated file - DO NOT EDIT\n" ++ registryPart ++ directPart ++ "\n"

/-- The file-write sequence of `generate` after processing succeeds
(source lines 479-500): one component file per icon, then — when the mode
is `registry` or `both` — the registry module and the `Icon` wrapper, then
always the index. -/
def writtenFiles (icons : List ProcessedIcon) (config : GenConfig) : List (String × String) :=
  let ext := getFileExtension config.typescript
  (icons.map (fun icon =>
      (icon.componentName ++ "." ++ ext, generateIconComponent icon config)))
  ++ (if config.iconMode = IconMode.registry ∨ config.iconMode = IconMode.both then
        [("IconRegistry." ++ ext, generateIconRegistry icons config),
         ("Icon." ++ ext, generateIconWrapper config)]
      else [])
  ++ [("index." ++ (if ext = "tsx" then "ts" else "js"), generateIndexFile icons config)]

/-- The key/value pairs of the generated registry's `iconComponents` object
literal, one per processed icon, in processing order. -/
def registryEntries (icons : List ProcessedIcon) : List (String × String) :=
  icons.map (fun icon => (icon.camelCaseName, icon.componentName))

/-- Modelled from the spec: the generated registry's lookup structure is an
ECMAScript object literal (`iconComponents`), and object-literal semantics
assign properties in source order, so a duplicated key ends up holding the
last assigned value.  `jsObjectLookup` is that semantics for string keys. -/
def jsObjectLookup (entries : List (String × String)) (key : String) : Option String :=
  entries.foldl (fun acc e => if e.1 = key then some e.2 else acc) none

/-- Embeds `getIconComponent(name)` of the generated registry, under
object-literal semantics. -/
def getIconComponentModel (icons : List ProcessedIcon) (key : String) : Option String :=
  jsObjectLookup (registryEntries icons) key

/-! ## Idempotence of the attribute translator

The proof shows that one full pass of `convertSvgAttributesToCamelCase`
leaves no match of any mapped key behind: a replaced camelCase name consists
solely of ASCII letters and, lowered, is an infix of no key, so replacements
can neither survive as matches nor create new ones. -/

/-- Embeds `tlk key s`: the pattern `key(?=\s*=)` matches at the head of `s`
(ignoring the word-boundary condition). -/
def tlk (key s : List Char) : Bool :=
  match tryKey key s with
  | some r => lookEq r
  | none => false

/-- Embeds `hasM key pw s`: some position of `s` carries a full match of
`\b key (?=\s*=)`, where `pw` tells whether the character before `s` is a
word character. -/
def hasM (key : List Char) : Bool → List Char → Bool
  | _, [] => false
  | pw, c :: cs => (matchAt key pw (c :: cs)).isSome || hasM key (isWordChar c) cs

/-- The word-character status after scanning past `u`, starting from `pw`. -/
def wstat (pw : Bool) : List Char → Bool
  | [] => pw
  | c :: cs => wstat (isWordChar c) cs

/-- Embeds `pat` occurs (as an exact substring) in `s`. -/
def occursIn (pat : List Char) : List Char → Bool
  | [] => pat.isEmpty
  | c :: cs => leadsWith pat (c :: cs) || occursIn pat cs

/-- Embeds `pat` occurs case-insensitively in `s`. -/
def occursInCI (pat : List Char) : List Char → Bool
  | [] => pat.isEmpty
  | c :: cs => leadsWithCI pat (c :: cs) || occursInCI pat cs

/-! ### Character-class facts for the translation proof -/

theorem mem_of_jsSpace {c : Char} (h : isJsSpace c = true) : c ∈ jsSpaceChars := by
  simpa [isJsSpace, List.contains_iff_exists_mem_beq] using h

theorem alpha_not_space {c : Char} (h : isAsciiAlpha c = true) : isJsSpace c = false := by
  cases hjs : isJsSpace c
  · rfl
  · have hall : ∀ x ∈ jsSpaceChars, isAsciiAlpha x = false := by decide
    rw [hall c (mem_of_jsSpace hjs)] at h
    cases h

theorem alpha_ne_eqsign {c : Char} (h : isAsciiAlpha c = true) : c ≠ '=' := by
  intro hh
  subst hh
  exact absurd h (by decide)

theorem word_of_alpha {c : Char} (h : isAsciiAlpha c = true) : isWordChar c = true := by
  simp [isWordChar, h]

theorem lookEq_letter {c : Char} (h : isAsciiAlpha c = true) (cs : List Char) :
    lookEq (c :: cs) = false := by
  simp [lookEq, alpha_ne_eqsign h, alpha_not_space h]

/-! ### Matches cannot start at, or survive inside, a replaced camel name -/

theorem leadsWith_nil_false {p : Char} {ps : List Char} :
    leadsWith (p :: ps) [] = false := rfl

theorem not_leadsWith_of_not_occurs {pat s : List Char} (h : occursIn pat s = false) :
    leadsWith pat s = false := by
  cases s with
  | nil =>
    cases pat with
    | nil => simp [occursIn, List.isEmpty] at h
    | cons p ps => rfl
  | cons c cs =>
    simp only [occursIn, Bool.or_eq_false_iff] at h
    exact h.1

theorem occursIn_tail {pat : List Char} {c : Char} {cs : List Char}
    (h : occursIn pat (c :: cs) = false) : occursIn pat cs = false := by
  simp only [occursIn, Bool.or_eq_false_iff] at h
  exact h.2

theorem leadsWith_cons {p c : Char} {ps cs : List Char} :
    leadsWith (p :: ps) (c :: cs) = (decide (p = c) && leadsWith ps cs) := rfl

theorem tlk_cons {b c : Char} {bs x : List Char} :
    tlk (b :: bs) (c :: x) = if c.toLower = b then tlk bs x else false := by
  by_cases hcb : c.toLower = b
  · rw [if_pos hcb]
    unfold tlk
    rw [show tryKey (b :: bs) (c :: x) = tryKey bs x from by simp [tryKey, hcb]]
  · rw [if_neg hcb]
    unfold tlk
    rw [show tryKey (b :: bs) (c :: x) = none from by simp [tryKey, hcb]]

/-- No partial or full key match that begins exactly at a replaced camel
name can succeed: either it mismatches inside the camel text, ends strictly
inside it (the lookahead then sees a letter), or consumes it entirely (the
camel name, lowered, would be a prefix of the key remnant — excluded by the
table condition). -/
theorem tlk_camel : ∀ (cs : List Char) (c : Char),
    (c :: cs).all isAsciiAlpha = true →
    ∀ (kk : List Char), leadsWith ((c :: cs).map Char.toLower) kk = false →
    ∀ (T : List Char), tlk kk ((c :: cs) ++ T) = false := by
  intro cs
  induction cs with
  | nil =>
    intro c hal kk hpre T
    simp only [List.all_cons, List.all_nil, Bool.and_eq_true] at hal
    cases kk with
    | nil =>
      show tlk [] (c :: T) = false
      simp only [tlk, tryKey]
      exact lookEq_letter hal.1 _
    | cons b bs =>
      rw [List.cons_append, List.nil_append, tlk_cons]
      by_cases hcb : c.toLower = b
      · exfalso
        have hpre' := hpre
        simp only [List.map_cons, List.map_nil, leadsWith_cons] at hpre'
        rcases Bool.and_eq_false_iff.mp hpre' with hx | hx
        · rw [decide_eq_false_iff_not] at hx
          exact absurd hcb hx
        · exact absurd hx (by simp [leadsWith])
      · rw [if_neg hcb]
  | cons c2 cs2 ih =>
    intro c hal kk hpre T
    simp only [List.all_cons, Bool.and_eq_true] at hal
    cases kk with
    | nil =>
      show tlk [] (c :: ((c2 :: cs2) ++ T)) = false
      simp only [tlk, tryKey]
      exact lookEq_letter hal.1 _
    | cons b bs =>
      rw [List.cons_append, tlk_cons]
      by_cases hcb : c.toLower = b
      · rw [if_pos hcb]
        have hpre' := hpre
        simp only [List.map_cons, leadsWith_cons] at hpre'
        rcases Bool.and_eq_false_iff.mp hpre' with hx | hx
        · rw [decide_eq_false_iff_not] at hx
          exact absurd hcb hx
        · refine ih c2 (by simp [List.all_cons, hal.2.1, hal.2.2]) bs ?_ T
          simpa only [List.map_cons] using hx
      · rw [if_neg hcb]

/-- Inside a run of letters no match can start: the word boundary fails. -/
theorem matchAt_word {kk : List Char} {c : Char} (hc : isWordChar c = true)
    (x : List Char) : matchAt kk true (c :: x) = none := by
  unfold matchAt
  cases h : tryKey kk (c :: x) with
  | none => rfl
  | some r => simp [hc]

theorem matchAt_none_of_tlk {kk s : List Char} (h : tlk kk s = false) (pw : Bool) :
    matchAt kk pw s = none := by
  unfold matchAt
  cases s with
  | nil => rfl
  | cons c cs =>
    unfold tlk at h
    cases ht : tryKey kk (c :: cs) with
    | none => rfl
    | some r =>
      rw [ht] at h
      have h2 : lookEq r = false := h
      simp [h2]

theorem hasM_letters {kk m : List Char} (hal : m.all isAsciiAlpha = true) (T : List Char) :
    hasM kk true (m ++ T) = hasM kk true T := by
  induction m with
  | nil => rfl
  | cons c cs ih =>
    simp only [List.all_cons, Bool.and_eq_true] at hal
    show ((matchAt kk true (c :: (cs ++ T))).isSome || hasM kk (isWordChar c) (cs ++ T))
      = hasM kk true T
    rw [matchAt_word (word_of_alpha hal.1), word_of_alpha hal.1]
    simp only [Option.isSome_none, Bool.false_or]
    exact ih hal.2

/-- A match region spliced in place of a key leaves the surrounding match
structure governed by the text after it: no match starts inside the camel
name, and the status entering the tail is `true` (a letter precedes it). -/
theorem hasM_camel {kk cm : List Char} (hne : cm ≠ []) (hal : cm.all isAsciiAlpha = true)
    (hpre : leadsWith (cm.map Char.toLower) kk = false) (pw : Bool) (T : List Char) :
    hasM kk pw (cm ++ T) = hasM kk true T := by
  cases cm with
  | nil => exact absurd rfl hne
  | cons c cs =>
    simp only [List.all_cons, Bool.and_eq_true] at hal
    show ((matchAt kk pw (c :: (cs ++ T))).isSome || hasM kk (isWordChar c) (cs ++ T))
      = hasM kk true T
    have hnone : matchAt kk pw (c :: (cs ++ T)) = none :=
      matchAt_none_of_tlk (tlk_camel cs c (by simp [List.all_cons, hal.1, hal.2]) kk hpre T) pw
    rw [hnone, word_of_alpha hal.1]
    simp only [Option.isSome_none, Bool.false_or]
    exact hasM_letters hal.2 T

/-! ### Support lemmas about `tryKey`, `matchAt`, `hasM` -/

theorem hasM_cons {kk : List Char} {pw : Bool} {c : Char} {x : List Char} :
    hasM kk pw (c :: x)
      = ((matchAt kk pw (c :: x)).isSome || hasM kk (isWordChar c) x) := rfl

theorem tryKey_length {k s r : List Char} (h : tryKey k s = some r) :
    s.length = k.length + r.length := by
  induction k generalizing s with
  | nil =>
    have : s = r := by simpa [tryKey] using h
    simp [this]
  | cons a as ih =>
    cases s with
    | nil => cases h
    | cons c cs =>
      simp only [tryKey] at h
      split at h
      · have := ih h
        simp only [List.length_cons, this]
        omega
      · cases h

theorem tryKey_decomp {k s r : List Char} (h : tryKey k s = some r) :
    ∃ u, s = u ++ r ∧ u.map Char.toLower = k := by
  induction k generalizing s with
  | nil =>
    refine ⟨[], ?_, rfl⟩
    simpa [tryKey] using h
  | cons a as ih =>
    cases s with
    | nil => cases h
    | cons c cs =>
      simp only [tryKey] at h
      split at h
      · rename_i hca
        obtain ⟨u, hu1, hu2⟩ := ih h
        exact ⟨c :: u, by simp [hu1], by simp [hu2, hca]⟩
      · cases h

theorem matchAt_eq_ite {kk : List Char} {pw : Bool} {c : Char} {x r : List Char}
    (ht : tryKey kk (c :: x) = some r) :
    matchAt kk pw (c :: x)
      = if (pw != isWordChar c) && lookEq r then some r else none := by
  simp only [matchAt]
  rw [ht]

theorem matchAt_eq_none {kk : List Char} {pw : Bool} {c : Char} {x : List Char}
    (ht : tryKey kk (c :: x) = none) :
    matchAt kk pw (c :: x) = none := by
  simp only [matchAt]
  rw [ht]

theorem matchAt_tryKey {kk s r : List Char} {pw : Bool}
    (h : matchAt kk pw s = some r) : tryKey kk s = some r := by
  cases s with
  | nil => cases h
  | cons c x =>
    cases ht : tryKey kk (c :: x) with
    | none =>
      rw [matchAt_eq_none ht] at h
      cases h
    | some r2 =>
      rw [matchAt_eq_ite ht] at h
      by_cases hcond : ((pw != isWordChar c) && lookEq r2) = true
      · rw [if_pos hcond] at h
        exact h
      · rw [if_neg hcond] at h
        cases h

theorem matchAt_parts {kk : List Char} {pw : Bool} {c : Char} {x r : List Char}
    (h : matchAt kk pw (c :: x) = some r) :
    tlk kk (c :: x) = true ∧ (pw != isWordChar c) = true := by
  cases ht : tryKey kk (c :: x) with
  | none =>
    rw [matchAt_eq_none ht] at h
    cases h
  | some r2 =>
    rw [matchAt_eq_ite ht] at h
    by_cases hcond : ((pw != isWordChar c) && lookEq r2) = true
    · rw [Bool.and_eq_true] at hcond
      refine ⟨?_, hcond.1⟩
      unfold tlk
      rw [ht]
      exact hcond.2
    · rw [if_neg hcond] at h
      cases h

theorem matchAt_isSome_of_tlk {kk : List Char} {pw : Bool} {c : Char} {x : List Char}
    (hb : (pw != isWordChar c) = true) (ht : tlk kk (c :: x) = true) :
    (matchAt kk pw (c :: x)).isSome = true := by
  unfold tlk at ht
  cases htk : tryKey kk (c :: x) with
  | none =>
    rw [htk] at ht
    cases ht
  | some r =>
    rw [htk] at ht
    have ht2 : lookEq r = true := ht
    rw [matchAt_eq_ite htk, hb, ht2]
    rfl

theorem wstat_last {u : List Char} {c : Char} (h : lastChar? u = some c) :
    ∀ pw, wstat pw u = isWordChar c := by
  induction u with
  | nil => cases h
  | cons a t ih =>
    intro pw
    cases t with
    | nil =>
      simp only [lastChar?, Option.some_inj] at h
      subst h
      rfl
    | cons b t2 =>
      rw [lastChar?_cons_cons] at h
      show wstat (isWordChar a) (b :: t2) = isWordChar c
      exact ih h (isWordChar a)

theorem word_of_toLower_lower {c : Char} (h : isAsciiLower c.toLower = true) :
    isWordChar c = true := by
  by_cases hu : c.toNat ≥ 65 ∧ c.toNat ≤ 90
  · have : isAsciiUpper c = true := by
      simp only [isAsciiUpper, Bool.and_eq_true, decide_eq_true_eq]
      omega
    simp [isWordChar, isAsciiAlpha, this]
  · rw [toLower_eq_of_not_upper hu] at h
    simp [isWordChar, isAsciiAlpha, h]

theorem hasM_append_right {kk : List Char} :
    ∀ (u : List Char) (pw : Bool) (r : List Char),
      hasM kk (wstat pw u) r = true → hasM kk pw (u ++ r) = true := by
  intro u
  induction u with
  | nil => intro pw r h; exact h
  | cons c cs ih =>
    intro pw r h
    rw [List.cons_append, hasM_cons]
    simp only [Bool.or_eq_true]
    exact Or.inr (ih (isWordChar c) r h)

theorem occursIn_nil_false {cm : List Char} (h : cm ≠ []) :
    occursIn (cm.map Char.toLower) [] = false := by
  cases cm with
  | nil => exact absurd rfl h
  | cons c cs => rfl

/-! ### A full pass creates no match and destroys all matches of its key -/

/-- Simulation: any match-with-lookahead at the head of the transformed
string was already present at the head of the original string. -/
theorem tlk_scanKey {k cm : List Char} (hcmne : cm ≠ []) (hal : cm.all isAsciiAlpha = true) :
    ∀ (fuel : Nat) (s : List Char) (pw : Bool) (kk : List Char),
      occursIn (cm.map Char.toLower) kk = false →
      tlk kk (scanKey k cm fuel pw s) = true → tlk kk s = true := by
  intro fuel
  induction fuel with
  | zero =>
    intro s pw kk _ h
    simpa [scanKey] using h
  | succ f ih =>
    intro s pw kk hocc h
    cases s with
    | nil => simpa [scanKey] using h
    | cons c cs =>
      cases hm : matchAt k pw (c :: cs) with
      | some r =>
        exfalso
        rw [show scanKey k cm (f + 1) pw (c :: cs) = cm ++ scanKey k cm f true r from by
          simp [scanKey, hm]] at h
        cases hcm : cm with
        | nil => exact hcmne hcm
        | cons c0 cm2 =>
          subst hcm
          rw [tlk_camel cm2 c0 hal kk (not_leadsWith_of_not_occurs hocc) _] at h
          cases h
      | none =>
        rw [show scanKey k cm (f + 1) pw (c :: cs)
            = c :: scanKey k cm f (isWordChar c) cs from by simp [scanKey, hm]] at h
        cases kk with
        | nil =>
          have hl : lookEq (c :: scanKey k cm f (isWordChar c) cs) = true := h
          show lookEq (c :: cs) = true
          unfold lookEq at hl ⊢
          by_cases hce : c = '='
          · simp [hce]
          · rw [if_neg hce] at hl ⊢
            by_cases hcs : isJsSpace c = true
            · rw [if_pos hcs] at hl ⊢
              exact ih cs (isWordChar c) [] hocc hl
            · rw [if_neg hcs] at hl
              cases hl
        | cons b bs =>
          rw [tlk_cons] at h ⊢
          by_cases hcb : c.toLower = b
          · rw [if_pos hcb] at h ⊢
            exact ih cs (isWordChar c) bs (occursIn_tail hocc) h
          · rw [if_neg hcb] at h
            cases h

/-- Preservation: a full match anywhere in the transformed string implies a
full match in the original string (same key or any other key whose text the
camel name cannot fabricate). -/
theorem hasM_scanKey {k cm : List Char} (hcmne : cm ≠ []) (hal : cm.all isAsciiAlpha = true)
    {kl : Char} (hkl : lastChar? k = some kl) (hkll : isAsciiLower kl = true) :
    ∀ (fuel : Nat) (s : List Char) (pw : Bool) (kk : List Char),
      occursIn (cm.map Char.toLower) kk = false →
      hasM kk pw (scanKey k cm fuel pw s) = true → hasM kk pw s = true := by
  intro fuel
  induction fuel with
  | zero =>
    intro s pw kk _ h
    simpa [scanKey] using h
  | succ f ih =>
    intro s pw kk hocc h
    cases s with
    | nil => simpa [scanKey] using h
    | cons c cs =>
      cases hm : matchAt k pw (c :: cs) with
      | some r =>
        rw [show scanKey k cm (f + 1) pw (c :: cs) = cm ++ scanKey k cm f true r from by
          simp [scanKey, hm]] at h
        rw [hasM_camel hcmne hal (not_leadsWith_of_not_occurs hocc) pw _] at h
        have hr : hasM kk true r = true := ih r true kk hocc h
        obtain ⟨u, hu1, hu2⟩ := tryKey_decomp (matchAt_tryKey hm)
        rw [hu1]
        apply hasM_append_right
        cases hlc : lastChar? u with
        | none =>
          exfalso
          cases u with
          | nil =>
            rw [← hu2] at hkl
            cases hkl
          | cons a t =>
            obtain ⟨d, hd⟩ := lastChar?_isSome a t
            rw [hd] at hlc
            cases hlc
        | some ul =>
          have hmap : lastChar? k = some ul.toLower := by
            rw [← hu2, lastChar?_map, hlc]
            rfl
          rw [hkl, Option.some_inj] at hmap
          rw [wstat_last hlc pw, word_of_toLower_lower (by rw [← hmap]; exact hkll)]
          exact hr
      | none =>
        rw [show scanKey k cm (f + 1) pw (c :: cs)
            = c :: scanKey k cm f (isWordChar c) cs from by simp [scanKey, hm]] at h
        rw [hasM_cons] at h
        simp only [Bool.or_eq_true] at h
        rcases h with hL | hR
        · rw [Option.isSome_iff_exists] at hL
          obtain ⟨r', hr'⟩ := hL
          obtain ⟨htlk, hbd⟩ := matchAt_parts hr'
          have h3 : tlk kk (scanKey k cm (f + 1) pw (c :: cs)) = true := by
            rw [show scanKey k cm (f + 1) pw (c :: cs)
              = c :: scanKey k cm f (isWordChar c) cs from by simp [scanKey, hm]]
            exact htlk
          have h4 := tlk_scanKey hcmne hal (f + 1) (c :: cs) pw kk hocc h3
          rw [hasM_cons]
          simp only [Bool.or_eq_true]
          exact Or.inl (matchAt_isSome_of_tlk hbd h4)
        · rw [hasM_cons]
          simp only [Bool.or_eq_true]
          exact Or.inr (ih cs (isWordChar c) kk hocc hR)

/-- Self-elimination: after one full pass the scanned key matches nowhere. -/
theorem hasM_scanKey_self {k cm : List Char} (hkne : k ≠ []) (hcmne : cm ≠ [])
    (hal : cm.all isAsciiAlpha = true)
    (hocc : occursIn (cm.map Char.toLower) k = false) :
    ∀ (fuel : Nat) (s : List Char) (pw : Bool), s.length ≤ fuel →
      hasM k pw (scanKey k cm fuel pw s) = false := by
  intro fuel
  induction fuel with
  | zero =>
    intro s pw hlen
    have hs : s = [] := List.length_eq_zero.mp (Nat.le_zero.mp hlen)
    subst hs
    simp [scanKey, hasM]
  | succ f ih =>
    intro s pw hlen
    cases s with
    | nil => simp [scanKey, hasM]
    | cons c cs =>
      cases hm : matchAt k pw (c :: cs) with
      | some r =>
        rw [show scanKey k cm (f + 1) pw (c :: cs) = cm ++ scanKey k cm f true r from by
          simp [scanKey, hm]]
        rw [hasM_camel hcmne hal (not_leadsWith_of_not_occurs hocc) pw _]
        apply ih r true
        have h1 := tryKey_length (matchAt_tryKey hm)
        have h2 : 1 ≤ k.length := by
          cases k with
          | nil => exact absurd rfl hkne
          | cons a t => simp
        rw [List.length_cons] at h1 hlen
        omega
      | none =>
        rw [show scanKey k cm (f + 1) pw (c :: cs)
            = c :: scanKey k cm f (isWordChar c) cs from by simp [scanKey, hm]]
        rw [hasM_cons]
        refine Bool.or_eq_false_iff.mpr ⟨?_, ?_⟩
        · cases hm2 : matchAt k pw (c :: scanKey k cm f (isWordChar c) cs) with
          | none => rfl
          | some r' =>
            exfalso
            obtain ⟨htlk, hbd⟩ := matchAt_parts hm2
            have h3 : tlk k (scanKey k cm (f + 1) pw (c :: cs)) = true := by
              rw [show scanKey k cm (f + 1) pw (c :: cs)
                = c :: scanKey k cm f (isWordChar c) cs from by simp [scanKey, hm]]
              exact htlk
            have h4 := tlk_scanKey hcmne hal (f + 1) (c :: cs) pw k hocc h3
            have h5 := matchAt_isSome_of_tlk hbd h4
            rw [hm] at h5
            cases h5
        · apply ih cs (isWordChar c)
          rw [List.length_cons] at hlen
          omega

/-- A pass over a string with no match of its key is the identity. -/
theorem scanKey_id {k cm : List Char} :
    ∀ (fuel : Nat) (s : List Char) (pw : Bool), hasM k pw s = false →
      scanKey k cm fuel pw s = s := by
  intro fuel
  induction fuel with
  | zero => intro s pw _; simp [scanKey]
  | succ f ih =>
    intro s pw h
    cases s with
    | nil => simp [scanKey]
    | cons c cs =>
      rw [hasM_cons, Bool.or_eq_false_iff] at h
      have hm : matchAt k pw (c :: cs) = none := by
        cases hmm : matchAt k pw (c :: cs) with
        | none => rfl
        | some r =>
          rw [hmm] at h
          cases h.1
      simp [scanKey, hm, ih cs (isWordChar c) h.2]

/-! ### The table conditions, checked by computation -/

/-- Per-entry conditions: nonempty key ending in a lowercase letter,
nonempty all-letter camel replacement. -/
def entryOK (e : List Char × List Char) : Bool :=
  (!e.1.isEmpty) && (!e.2.isEmpty) && e.2.all isAsciiAlpha &&
    (match lastChar? e.1 with
     | some c => isAsciiLower c
     | none => false)

/-- All entry conditions plus the pairwise condition: no camel replacement,
lowered, occurs inside any key. -/
def tableOK (tl : List (List Char × List Char)) : Bool :=
  tl.all entryOK
    && tl.all (fun e => tl.all (fun e2 => !occursIn (e2.2.map Char.toLower) e.1))

theorem svgAttrTable_ok : tableOK svgAttrTable = true := by decide

theorem entryOK_spec {e : List Char × List Char} (h : entryOK e = true) :
    e.1 ≠ [] ∧ e.2 ≠ [] ∧ e.2.all isAsciiAlpha = true ∧
      ∃ c, lastChar? e.1 = some c ∧ isAsciiLower c = true := by
  unfold entryOK at h
  rw [Bool.and_eq_true, Bool.and_eq_true, Bool.and_eq_true] at h
  obtain ⟨⟨⟨h1, h2⟩, h3⟩, h4⟩ := h
  rw [Bool.not_eq_true', List.isEmpty_eq_false_iff_exists_mem] at h1 h2
  refine ⟨?_, ?_, h3, ?_⟩
  · obtain ⟨x, hx⟩ := h1
    intro hh
    rw [hh] at hx
    cases hx
  · obtain ⟨x, hx⟩ := h2
    intro hh
    rw [hh] at hx
    cases hx
  · cases hl : lastChar? e.1 with
    | none => rw [hl] at h4; cases h4
    | some c =>
      rw [hl] at h4
      exact ⟨c, rfl, h4⟩

theorem svgAttrTable_conds :
    (∀ e ∈ svgAttrTable, entryOK e = true) ∧
    (∀ e ∈ svgAttrTable, ∀ e2 ∈ svgAttrTable,
      occursIn (e2.2.map Char.toLower) e.1 = false) := by
  have h := svgAttrTable_ok
  unfold tableOK at h
  rw [Bool.and_eq_true, List.all_eq_true, List.all_eq_true] at h
  refine ⟨h.1, ?_⟩
  intro e he e2 he2
  have h2 := h.2 e he
  rw [List.all_eq_true] at h2
  have h3 := h2 e2 he2
  rwa [Bool.not_eq_true'] at h3

/-! ### Folding the table -/

theorem foldl_preserve_no_match {kk : List Char} :
    ∀ (tl : List (List Char × List Char)),
      (∀ e ∈ tl, entryOK e = true ∧ occursIn (e.2.map Char.toLower) kk = false) →
      ∀ s, hasM kk false s = false →
        hasM kk false (tl.foldl (fun acc e => replaceKey e.1 e.2 acc) s) = false := by
  intro tl
  induction tl with
  | nil => intro _ s h; exact h
  | cons e rest ih =>
    intro hc s h
    rw [List.foldl_cons]
    apply ih (fun x hx => hc x (List.mem_cons_of_mem e hx))
    obtain ⟨hek, hocc⟩ := hc e (List.mem_cons_self e rest)
    obtain ⟨hk1, hk2, hk3, kl, hk4, hk5⟩ := entryOK_spec hek
    cases hq : hasM kk false (replaceKey e.1 e.2 s) with
    | false => rfl
    | true =>
      exfalso
      have hq' : hasM kk false (scanKey e.1 e.2 s.length false s) = true := hq
      have hs := @hasM_scanKey e.1 e.2 hk2 hk3 kl hk4 hk5
        s.length s false kk hocc hq'
      rw [hs] at h
      cases h

theorem foldl_id_of_no_match :
    ∀ (tl : List (List Char × List Char)) (s : List Char),
      (∀ e ∈ tl, hasM e.1 false s = false) →
      tl.foldl (fun acc e => replaceKey e.1 e.2 acc) s = s := by
  intro tl
  induction tl with
  | nil => intro s _; rfl
  | cons e rest ih =>
    intro s h
    rw [List.foldl_cons]
    have he : replaceKey e.1 e.2 s = s :=
      scanKey_id s.length s false (h e (List.mem_cons_self e rest))
    rw [he]
    exact ih s (fun x hx => h x (List.mem_cons_of_mem e hx))

theorem foldl_no_match :
    ∀ (tl : List (List Char × List Char)),
      (∀ e ∈ tl, entryOK e = true) →
      (∀ e ∈ tl, ∀ e2 ∈ tl, occursIn (e2.2.map Char.toLower) e.1 = false) →
      ∀ (s : List Char), ∀ e ∈ tl,
        hasM e.1 false (tl.foldl (fun acc e => replaceKey e.1 e.2 acc) s) = false := by
  intro tl
  induction tl with
  | nil => intro _ _ s e he; cases he
  | cons e0 rest ih =>
    intro hent hpair s e he
    rw [List.foldl_cons]
    rcases List.mem_cons.mp he with rfl | hrest
    · apply foldl_preserve_no_match rest
      · intro x hx
        exact ⟨hent x (List.mem_cons_of_mem e hx),
          hpair e (List.mem_cons_self e rest) x (List.mem_cons_of_mem e hx)⟩
      · obtain ⟨hk1, hk2, hk3, kl, hk4, hk5⟩ :=
          entryOK_spec (hent e (List.mem_cons_self e rest))
        have hself := @hasM_scanKey_self e.1 e.2 hk1 hk2 hk3
          (hpair e (List.mem_cons_self e rest) e (List.mem_cons_self e rest))
          s.length s false (Nat.le_refl _)
        exact hself
    · exact ih (fun x hx => hent x (List.mem_cons_of_mem e0 hx))
        (fun x hx y hy =>
          hpair x (List.mem_cons_of_mem e0 hx) y (List.mem_cons_of_mem e0 hy))
        (replaceKey e0.1 e0.2 s) e hrest

theorem hasM_of_no_occurrence {k : List Char} :
    ∀ (s : List Char) (pw : Bool), occursInCI k s = false → hasM k pw s = false := by
  intro s
  induction s with
  | nil => intro pw _; rfl
  | cons c cs ih =>
    intro pw hocc
    simp only [occursInCI, Bool.or_eq_false_iff] at hocc
    rw [hasM_cons, Bool.or_eq_false_iff]
    refine ⟨?_, ih (isWordChar c) hocc.2⟩
    cases hm : matchAt k pw (c :: cs) with
    | none => rfl
    | some r =>
      exfalso
      have ht := matchAt_tryKey hm
      have hl : leadsWithCI k (c :: cs) = true := by
        unfold leadsWithCI
        rw [ht]
        rfl
      rw [hl] at hocc
      cases hocc.1

theorem sanitizeList_fix {r : List Char} (h : goodName r = true) :
    sanitizeList r = r := by
  unfold goodName at h
  simp only [Bool.and_eq_true, Bool.not_eq_true', beq_eq_false_iff_ne, ne_eq] at h
  obtain ⟨⟨⟨hall, hhead⟩, hlast⟩, hnd⟩ := h
  have hdot : ∀ c ∈ r, c ≠ '.' := by
    intro c hc hcc
    rw [List.all_eq_true] at hall
    have := hall c hc
    rw [hcc] at this
    cases this
  have hallowed : r.all isAllowed = true := by
    rw [List.all_eq_true] at hall ⊢
    exact fun x hx => allowed_of_allowedLower (hall x hx)
  have e1 : removeFirstOcc svgExt r = r := removeFirstOcc_svg_id hdot
  have e2 : collapseSeps r = r := collapseSepsAux_id hall hnd
  have e3 : filterAllowed r = r := filterAllowed_id hallowed
  have e4 : trimHyphens r = r := by
    unfold trimHyphens
    rw [dropLeadH_id hhead, dropTrailH_id hlast]
  have e5 : collapseHyphens r = r := collapseHAux_id hnd
  have e6 : r.map Char.toLower = r := map_toLower_id hall
  unfold sanitizeList
  rw [e1, e2, e3, e4, e5, e6]

end Svgify

/-- Claim C2: for every input filename string, `sanitizeFileName`'s output
contains only lowercase letters, digits and hyphens, with no leading hyphen,
no trailing hyphen and no two adjacent hyphens (the empty string satisfies
this vacuously). -/
theorem Svgify.c2_sanitize_invariant (s : String) :
    Svgify.goodName (Svgify.sanitizeFileName s).data = true :=
  Svgify.goodName_sanitizeList s.data

/-- Claim C9: `sanitizeFileName` is idempotent. -/
theorem Svgify.c9_sanitize_idempotent (s : String) :
    Svgify.sanitizeFileName (Svgify.sanitizeFileName s) = Svgify.sanitizeFileName s := by
  have h : Svgify.sanitizeList (Svgify.sanitizeList s.data) = Svgify.sanitizeList s.data :=
    Svgify.sanitizeList_fix (Svgify.goodName_sanitizeList s.data)
  show (⟨Svgify.sanitizeList (Svgify.sanitizeList s.data)⟩ : String)
    = ⟨Svgify.sanitizeList s.data⟩
  rw [h]

theorem jsObjectLookup_no_match {l : List (String × String)} {k : String}
    (h : ∀ e ∈ l, e.1 ≠ k) (acc : Option String) :
    l.foldl (fun acc e => if e.1 = k then some e.2 else acc) acc = acc := by
  induction l generalizing acc with
  | nil => rfl
  | cons e t ih =>
    rw [List.foldl_cons, if_neg (h e (List.mem_cons_self e t))]
    exact ih (fun x hx => h x (List.mem_cons_of_mem e hx)) acc

/-- Claim C7: when one run contains two icons with the same `camelCaseName`,
registry generation neither detects nor rejects the collision (the object
literal still receives one entry per icon) and the duplicated key resolves,
under object-literal semantics, to the component of the later icon. -/
theorem Svgify.c7_duplicate_key_last_wins (pre post : List Svgify.ProcessedIcon)
    (dup : Svgify.ProcessedIcon) (key : String)
    (hdup : dup.camelCaseName = key)
    (hpre : ∃ i ∈ pre, i.camelCaseName = key)
    (hpost : ∀ i ∈ post, i.camelCaseName ≠ key) :
    Svgify.getIconComponentModel (pre ++ dup :: post) key = some dup.componentName ∧
    (Svgify.registryEntries (pre ++ dup :: post)).length
      = pre.length + 1 + post.length := by
  constructor
  · unfold Svgify.getIconComponentModel Svgify.jsObjectLookup Svgify.registryEntries
    rw [List.map_append, List.map_cons, List.foldl_append, List.foldl_cons,
      if_pos hdup]
    exact jsObjectLookup_no_match
      (by
        intro e he
        rw [List.mem_map] at he
        obtain ⟨i, hi, rfl⟩ := he
        exact hpost i hi)
      (some dup.componentName)
  · unfold Svgify.registryEntries
    simp [Nat.add_comm, Nat.add_assoc, Nat.add_left_comm]

/-- Claim C7 (witness): `user-icon.svg` and `User_Icon.svg` both sanitize to
`user-icon`; the registry lookup at `userIcon` yields the second icon's
component. -/
theorem Svgify.c7_duplicate_key_last_wins_witness :
    Svgify.getIconComponentModel
      [{ originalFile := "user-icon.svg", sanitizedName := "user-icon",
         componentName := "UserIconIcon", camelCaseName := "userIcon",
         svgContent := "a", optimizedSvg := "<a/>" },
       { originalFile := "User_Icon.svg", sanitizedName := "user-icon",
         componentName := "UserIconIcon", camelCaseName := "userIcon",
         svgContent := "b", optimizedSvg := "<b/>" }] "userIcon"
      = some "UserIconIcon" ∧
    (Svgify.registryEntries
      [{ originalFile := "user-icon.svg", sanitizedName := "user-icon",
         componentName := "UserIconIcon", camelCaseName := "userIcon",
         svgContent := "a", optimizedSvg := "<a/>" },
       { originalFile := "User_Icon.svg", sanitizedName := "user-icon",
         componentName := "UserIconIcon", camelCaseName := "userIcon",
         svgContent := "b", optimizedSvg := "<b/>" }]).length = 1 + 1 + 0 :=
  Svgify.c7_duplicate_key_last_wins
    [{ originalFile := "user-icon.svg", sanitizedName := "user-icon",
       componentName := "UserIconIcon", camelCaseName := "userIcon",
       svgContent := "a", optimizedSvg := "<a/>" }]
    []
    { originalFile := "User_Icon.svg", sanitizedName := "user-icon",
      componentName := "UserIconIcon", camelCaseName := "userIcon",
      svgContent := "b", optimizedSvg := "<b/>" }
    "userIcon" rfl ⟨_, List.mem_singleton_self _, rfl⟩ (fun i hi => by cases hi)

/-- Claim C5: with N successfully processed icons, a `both`-mode run writes
exactly the N component files plus `IconRegistry`, `Icon` and one index
file; a `direct`-mode run writes no `IconRegistry` or `Icon` wrapper file,
and its index consists of the header plus only the direct-export group with
one export line per processed icon. -/
theorem Svgify.c5_written_files (icons : List Svgify.ProcessedIcon) (ts : Bool)
    (cls : String) :
    ((Svgify.writtenFiles icons ⟨Svgify.IconMode.both, ts, cls⟩).map Prod.fst
       = icons.map (fun i => i.componentName ++ "." ++ Svgify.getFileExtension ts)
         ++ ["IconRegistry." ++ Svgify.getFileExtension ts,
             "Icon." ++ Svgify.getFileExtension ts,
             "index." ++ (if Svgify.getFileExtension ts = "tsx" then "ts" else "js")] ∧
     (Svgify.writtenFiles icons ⟨Svgify.IconMode.both, ts, cls⟩).length
       = icons.length + 3) ∧
    ((Svgify.writtenFiles icons ⟨Svgify.IconMode.direct, ts, cls⟩).map Prod.fst
       = icons.map (fun i => i.componentName ++ "." ++ Svgify.getFileExtension ts)
         ++ ["index." ++ (if Svgify.getFileExtension ts = "tsx" then "ts" else "js")] ∧
     (Svgify.writtenFiles icons ⟨Svgify.IconMode.direct, ts, cls⟩).length
       = icons.length + 1 ∧
     Svgify.generateIndexFile icons ⟨Svgify.IconMode.direct, ts, cls⟩
       = "// Auto-generated file - DO NOT EDIT\n"
         ++ ("// Direct component exports\n"
         ++ String.intercalate "\n" (icons.map (fun icon =>
              "export \x7b default as " ++ icon.componentName ++ " \x7d from \x27./"
                ++ icon.componentName ++ "\x27;"))
         ++ "\n\n// Total icons: " ++ toString icons.length) ++ "\n") := by
  refine ⟨⟨?_, ?_⟩, ?_, ?_, ?_⟩
  · simp [Svgify.writtenFiles]
  · simp [Svgify.writtenFiles, Nat.add_assoc]
  · simp [Svgify.writtenFiles]
  · simp [Svgify.writtenFiles]
  · simp [Svgify.generateIndexFile]

theorem leadsWith_eq_of_len {p : List Char} :
    ∀ {q s : List Char}, Svgify.leadsWith p s = true → Svgify.leadsWith q s = true →
      p.length = q.length → p = q := by
  induction p with
  | nil =>
    intro q s _ _ hlen
    cases q with
    | nil => rfl
    | cons b bs => cases hlen
  | cons a as ih =>
    intro q s hp hq hlen
    cases q with
    | nil => cases hlen
    | cons b bs =>
      cases s with
      | nil => cases hp
      | cons c cs =>
        rw [Svgify.leadsWith_cons, Bool.and_eq_true, decide_eq_true_eq] at hp hq
        rw [hp.1, hq.1, ih hp.2 hq.2 (by simpa using hlen)]

theorem processLoop_filterMap (files : List String) (readF : String → Except String String)
    (optF : String → String → Except String String) :
    Svgify.processLoop files readF optF
      = files.filterMap (fun f => Svgify.processIcon f (readF f) (optF f)) := by
  unfold Svgify.processLoop
  suffices h : ∀ acc, files.foldl (fun acc f =>
      match Svgify.processIcon f (readF f) (optF f) with
      | some icon => acc ++ [icon]
      | none => acc) acc
      = acc ++ files.filterMap (fun f => Svgify.processIcon f (readF f) (optF f)) by
    simpa using h []
  induction files with
  | nil => intro acc; simp
  | cons f fs ih =>
    intro acc
    simp only [List.foldl_cons, List.filterMap_cons]
    cases hp : Svgify.processIcon f (readF f) (optF f) with
    | none => simp only [hp]; exact ih acc
    | some icon =>
      simp only [hp, ih (acc ++ [icon]), List.append_assoc, List.singleton_append]

/-- Claim C1 (counterexample): the claim states that the stripping stage of
`processIcon` removes the LAST occurrence of the closing `</svg>` tag; the
code removes the first occurrence.  On the optimizer output
`<svg><a/></svg><b/></svg>` the code's stripping yields `<a/><b/></svg>`
while the claim's reading yields `<a/></svg><b/>`, and the derived
`optimizedSvg` values differ accordingly. -/
theorem Svgify.c1_counterexample :
    Svgify.extractInner "<svg><a/></svg><b/></svg>".data = "<a/><b/></svg>".data ∧
    Svgify.specExtractInner "<svg><a/></svg><b/></svg>".data = "<a/></svg><b/>".data ∧
    Svgify.optimizedSvgOf "<svg><a/></svg><b/></svg>".data ≠
      Svgify.convertSvgAttributesToCamelCase (Svgify.normStroke (Svgify.normFill
        (Svgify.specExtractInner "<svg><a/></svg><b/></svg>".data))) :=
  ⟨by decide, by decide, by decide⟩

/-- Claim C1 (amended): for every optimizer output, `processIcon` derives
`optimizedSvg` by removing the first occurrence of an opening `<svg...>` tag
and the FIRST occurrence of the closing `</svg>` tag, trimming, then
applying color normalization and attribute-name translation. -/
theorem Svgify.c1_strip_first_close (filename : String) (svg : String)
    (optF : String → Except String String) (icon : Svgify.ProcessedIcon) (data : String)
    (hopt : optF svg = .ok data)
    (h : Svgify.processIcon filename (.ok svg) optF = some icon) :
    icon.optimizedSvg = ⟨Svgify.convertSvgAttributesToCamelCase (Svgify.normStroke
      (Svgify.normFill (Svgify.trimJs (Svgify.removeFirstOcc Svgify.closeTagLit
        (Svgify.removeOpenTag data.data)))))⟩ := by
  simp only [Svgify.processIcon, hopt] at h
  split at h
  · cases h
  · split at h
    · cases h
    · rw [Option.some_inj] at h
      subst h
      rfl

/-- Claim C1 (witness): the amended statement at a concrete optimizer
output. -/
theorem Svgify.c1_strip_first_close_witness :
    ({ originalFile := "a.svg", sanitizedName := "a", componentName := "AIcon",
       camelCaseName := "a", svgContent := "x", optimizedSvg := "<p/>" } :
        Svgify.ProcessedIcon).optimizedSvg
      = ⟨Svgify.convertSvgAttributesToCamelCase (Svgify.normStroke (Svgify.normFill
          (Svgify.trimJs (Svgify.removeFirstOcc Svgify.closeTagLit
            (Svgify.removeOpenTag "<svg><p/></svg>".data)))))⟩ :=
  Svgify.c1_strip_first_close "a.svg" "x" (fun _ => .ok "<svg><p/></svg>")
    _ "<svg><p/></svg>" rfl (by decide)

/-- Claim C6: `processIcon` returns `null` exactly when the filename lacks a
`.svg` suffix, the file read fails, the optimizer fails, or sanitization
yields an empty name; and a `null` result never aborts the run: the
`generate` loop accumulates exactly the non-`null` per-file results, in
order. -/
theorem Svgify.c6_processIcon_none_iff (filename : String)
    (readResult : Except String String) (optF : String → Except String String)
    (files : List String) (readF : String → Except String String)
    (optOf : String → String → Except String String) :
    (Svgify.processIcon filename readResult optF = none ↔
      (Svgify.trailsWith Svgify.svgSuffix filename.data = false ∨
       (∃ e, readResult = .error e) ∨
       (∃ svg e, readResult = .ok svg ∧ optF svg = .error e) ∨
       Svgify.sanitizeFileName filename = "")) ∧
    Svgify.processLoop files readF optOf
      = files.filterMap (fun f => Svgify.processIcon f (readF f) (optOf f)) := by
  refine ⟨?_, processLoop_filterMap files readF optOf⟩
  unfold Svgify.processIcon
  by_cases hs : Svgify.trailsWith Svgify.svgSuffix filename.data = false
  · simp [hs]
  · cases readResult with
    | error e => simp [hs]
    | ok svg =>
      cases hov : optF svg with
      | error e => simp [hs, hov]
      | ok data =>
        by_cases hsan : Svgify.sanitizeFileName filename = ""
        · simp [hs, hov, hsan]
        · simp [hs, hov, hsan]

/-- Claim C10: the `.svg` suffix test is case-sensitive both in the
discovery filter and in `processIcon`'s guard: a name ending in an
uppercase or mixed-case variant of `.svg` (such as `.SVG`) does not end in
`.svg`, is never selected by the filter, and `processIcon` returns `null`
for it. -/
theorem Svgify.c10_suffix_case_sensitive (name : String) (files : List String)
    (readResult : Except String String) (optF : String → Except String String)
    (w : List Char) (hw : w.map Char.toLower = Svgify.svgSuffix)
    (hne : w ≠ Svgify.svgSuffix)
    (h : Svgify.trailsWith w name.data = true) :
    Svgify.trailsWith Svgify.svgSuffix name.data = false ∧
    name ∉ Svgify.filterSvgFiles files ∧
    Svgify.processIcon name readResult optF = none := by
  have hlen : w.length = Svgify.svgSuffix.length := by
    rw [← hw, List.length_map]
  have hf : Svgify.trailsWith Svgify.svgSuffix name.data = false := by
    by_cases hsvg : Svgify.trailsWith Svgify.svgSuffix name.data = true
    · exfalso
      unfold Svgify.trailsWith at h hsvg
      have := leadsWith_eq_of_len h hsvg (by simp [hlen])
      exact hne (List.reverse_inj.mp this)
    · simpa using hsvg
  refine ⟨hf, ?_, ?_⟩
  · intro hmem
    unfold Svgify.filterSvgFiles at hmem
    have := (List.mem_filter.mp hmem).2
    rw [hf] at this
    cases this
  · unfold Svgify.processIcon
    rw [if_pos hf]

/-- Claim C10 (witness): the concrete name `icon.SVG` with the variant
suffix `.SVG`. -/
theorem Svgify.c10_suffix_case_sensitive_witness :
    Svgify.trailsWith Svgify.svgSuffix "icon.SVG".data = false ∧
    "icon.SVG" ∉ Svgify.filterSvgFiles ["icon.SVG"] ∧
    Svgify.processIcon "icon.SVG" (.ok "x") (fun _ => .ok "y") = none :=
  Svgify.c10_suffix_case_sensitive "icon.SVG" ["icon.SVG"] (.ok "x") (fun _ => .ok "y")
    ".SVG".data (by decide) (by decide) (by decide)

/-- Claim C3: attribute-name translation is idempotent — translating twice
equals translating once — and markup containing no mapped kebab-case
attribute name (even case-insensitively) is left unchanged. -/
theorem Svgify.c3_attr_translation_idempotent (s : List Char) :
    Svgify.convertSvgAttributesToCamelCase (Svgify.convertSvgAttributesToCamelCase s)
      = Svgify.convertSvgAttributesToCamelCase s ∧
    ((∀ e ∈ Svgify.svgAttrTable, Svgify.occursInCI e.1 s = false) →
      Svgify.convertSvgAttributesToCamelCase s = s) := by
  constructor
  · show Svgify.svgAttrTable.foldl
      (fun acc e => Svgify.replaceKey e.1 e.2 acc)
      (Svgify.convertSvgAttributesToCamelCase s) = _
    apply Svgify.foldl_id_of_no_match
    intro e he
    exact Svgify.foldl_no_match Svgify.svgAttrTable
      Svgify.svgAttrTable_conds.1 Svgify.svgAttrTable_conds.2 s e he
  · intro h
    apply Svgify.foldl_id_of_no_match
    intro e he
    exact Svgify.hasM_of_no_occurrence s false (h e he)

/-- Claim C3 (witness): the already-camelCase markup `fillRule="evenodd"`,
which contains no mapped kebab-case name, is a fixed point, and translating
it twice equals translating it once. -/
theorem Svgify.c3_attr_translation_idempotent_witness :
    Svgify.convertSvgAttributesToCamelCase (Svgify.convertSvgAttributesToCamelCase
        "fillRule=\"evenodd\"".data)
      = Svgify.convertSvgAttributesToCamelCase "fillRule=\"evenodd\"".data ∧
    Svgify.convertSvgAttributesToCamelCase "fillRule=\"evenodd\"".data
      = "fillRule=\"evenodd\"".data :=
  ⟨(Svgify.c3_attr_translation_idempotent "fillRule=\"evenodd\"".data).1,
   (Svgify.c3_attr_translation_idempotent "fillRule=\"evenodd\"".data).2 (by decide)⟩

/-- Claim C4 (counterexample): the claim states that every `fill="X"` with X
neither `none` nor `currentColor` is rewritten to `fill="currentColor"`; but
for X = `nonexistent` (which differs from both) the code's regex leaves the
attribute unchanged, because its negative lookahead only excludes values
that START with `none` or `currentColor`. -/
theorem Svgify.c4_counterexample :
    Svgify.normFill "fill=\"nonexistent\"".data = "fill=\"nonexistent\"".data ∧
    Svgify.normFill "fill=\"nonexistent\"".data ≠ "fill=\"currentColor\"".data ∧
    ("nonexistent" : String) ≠ "none" ∧ ("nonexistent" : String) ≠ "currentColor" :=
  ⟨by decide, by decide, by decide, by decide⟩

/-- Claim C4 (amended): color normalization rewrites `fill="X"` to
`fill="currentColor"` whenever the value X (quote-free) does not start,
case-insensitively, with `none` or `currentColor`, and identically for
`stroke`; values starting with `none` or `currentColor` — in particular
exactly `fill="none"` and `fill="currentColor"` — are left unchanged. -/
theorem Svgify.c4_color_normalization (v : List Char)
    (hq : '"' ∉ v)
    (h1 : Svgify.leadsWithCI Svgify.noneLit v = false)
    (h2 : Svgify.leadsWithCI Svgify.currentColorLit v = false) :
    (Svgify.normFill ("fill=\"".data ++ v ++ ['"']) = "fill=\"currentColor\"".data ∧
     Svgify.normStroke ("stroke=\"".data ++ v ++ ['"']) = "stroke=\"currentColor\"".data) ∧
    Svgify.normFill "fill=\"none\"".data = "fill=\"none\"".data ∧
    Svgify.normFill "fill=\"currentColor\"".data = "fill=\"currentColor\"".data ∧
    Svgify.normStroke "stroke=\"none\"".data = "stroke=\"none\"".data ∧
    Svgify.normStroke "stroke=\"currentColor\"".data = "stroke=\"currentColor\"".data := by
  refine ⟨⟨?_, ?_⟩, by decide, by decide, by decide, by decide⟩
  · exact @Svgify.normColor_single 'f' "ill=\"".data v (by decide) hq h1 h2 _
  · exact @Svgify.normColor_single 's' "troke=\"".data v (by decide) hq h1 h2 _

/-- Claim C4 (witness): the amended statement at the concrete value
`#ff0000`, matching the spec's example `fill="#ff0000"` → `fill="currentColor"`. -/
theorem Svgify.c4_color_normalization_witness :
    (Svgify.normFill ("fill=\"".data ++ "#ff0000".data ++ ['"'])
        = "fill=\"currentColor\"".data ∧
     Svgify.normStroke ("stroke=\"".data ++ "#ff0000".data ++ ['"'])
        = "stroke=\"currentColor\"".data) ∧
    Svgify.normFill "fill=\"none\"".data = "fill=\"none\"".data ∧
    Svgify.normFill "fill=\"currentColor\"".data = "fill=\"currentColor\"".data ∧
    Svgify.normStroke "stroke=\"none\"".data = "stroke=\"none\"".data ∧
    Svgify.normStroke "stroke=\"currentColor\"".data = "stroke=\"currentColor\"".data :=
  Svgify.c4_color_normalization "#ff0000".data (by decide) (by decide) (by decide)

/-- Claim C8: concrete evaluations of the naming helpers:
`sanitizeFileName "My Icon_2.svg" = "my-icon-2"`, `sanitizeFileName "...svg" = ""`,
`toPascalCase "user-profile" = "UserProfile"`,
`toCamelCase "user-profile" = "userProfile"`. -/
theorem Svgify.c8_concrete_naming :
    Svgify.sanitizeFileName "My Icon_2.svg" = "my-icon-2" ∧
    Svgify.sanitizeFileName "...svg" = "" ∧
    Svgify.toPascalCase "user-profile" = "UserProfile" ∧
    Svgify.toCamelCase "user-profile" = "userProfile" := by
  refine ⟨?_, ?_, ?_, ?_⟩ <;> decide
